import Mathlib

/-!
Shallow embedding of the gradient layout engine of `weasyprint/images.py`
(stop-position resolution, normalization, average color, linear and radial
layout, radial repeat tiling), over exact rationals.

Python floats are modelled as rationals with exact arithmetic.  The
trigonometric and Euclidean-distance quantities computed by the source
(the direction unit vector of a linear gradient, the keyword-resolved
ending-shape sizes, and the maximal center-to-corner distance used by the
repeat tiler) are irrational reals; they enter the layout functions here
as explicit rational parameters, and every theorem quantifies over them.
Fallible paths (Python `ZeroDivisionError`, failed `assert`, a loop
falling through and returning `None`) are modelled with `Option`.
-/

namespace Weasy

/-- A CSS length-or-percentage, as carried by a color stop or a center
coordinate (`Dimension` with unit `px` or `%` in the source). -/
inductive Dimension
  | px (v : ℚ)
  | percent (v : ℚ)
deriving DecidableEq, Repr

/-- An rgba color with rational channels, the `(r, g, b, a)` tuple of the source. -/
structure RGBA where
  r : ℚ
  g : ℚ
  b : ℚ
  a : ℚ
deriving DecidableEq, Repr

/-- Default color used only to make the Python list indexing total; it is
never reached on inputs satisfying the constructor invariant. -/
def dRGBA : RGBA := ⟨0, 0, 0, 0⟩

/-- Modelled from the spec: the percentage-resolution rule of the caller for the
`percentage` helper of `weasyprint.layout.percentages` (that module is not
part of the sources here).  A `px` value resolves to itself and a
percentage resolves against the reference length. -/
def percentage (d : Dimension) (refer_to : ℚ) : ℚ :=
  match d with
  | .px v => v
  | .percent v => refer_to * v / 100

/-- Line 215-216: if the first position is unset, set it to 0. -/
def set_first : List (Option ℚ) → List (Option ℚ)
  | [] => []
  | none :: rest => some 0 :: rest
  | p :: rest => p :: rest

/-- Line 217-218: if the last position is unset, set it to the vector length. -/
def set_last (vector_length : ℚ) (positions : List (Option ℚ)) : List (Option ℚ) :=
  match positions.getLast? with
  | some none => positions.dropLast ++ [some vector_length]
  | _ => positions

/-- Lines 220-227: make set positions non-decreasing by clamping each set
position up to the running maximum; `prev` is the running maximum
(set by the caller to the first position, which is set). -/
def clamp_pass : ℚ → List (Option ℚ) → List (Option ℚ)
  | _, [] => []
  | prev, none :: rest => none :: clamp_pass prev rest
  | prev, some p :: rest =>
      if p < prev then some prev :: clamp_pass prev rest
      else some p :: clamp_pass p rest

/-- Lines 229-237: assign missing values.  `base` is the value of the
previous anchor (set position), `base_i` its absolute index, `j` the
absolute index of the head of the remaining list, `buf` the number of
pending unset slots directly before index `j`.  When the next anchor `v`
at index `j` is found, each pending slot at absolute index `k` receives
`base + k * increment` with `increment = (v - base) / (j - base_i)`,
exactly as the source computes it. -/
def fill_aux : ℚ → ℕ → ℕ → ℕ → List (Option ℚ) → List ℚ
  | _, _, j, buf, [] => (List.range' (j - buf) buf).map fun (_ : ℕ) => (0 : ℚ)
  | base, base_i, j, buf, none :: rest => fill_aux base base_i (j + 1) (buf + 1) rest
  | base, base_i, j, buf, some v :: rest =>
      let increment := (v - base) / ((j : ℚ) - (base_i : ℚ))
      ((List.range' (j - buf) buf).map fun (k : ℕ) => base + (k : ℚ) * increment)
        ++ v :: fill_aux v j (j + 1) 0 rest

/-- Lines 197-239, `process_color_stops`: resolve percentages, default the
first and last positions, clamp to the running maximum, then fill unset
positions.  After defaulting, the head is always set, so the Python loop
over the whole list is equivalent to emitting the head and walking the
tail with the head as initial running maximum and anchor. -/
def process_color_stops (vector_length : ℚ) (stop_positions : List (Option Dimension)) :
    List ℚ :=
  let positions := stop_positions.map fun p => p.map (percentage · vector_length)
  let positions := set_last vector_length (set_first positions)
  match positions with
  | [] => []
  | p₀ :: rest =>
      let v₀ := p₀.getD 0
      v₀ :: fill_aux v₀ 0 1 0 (clamp_pass v₀ rest)

/-- Lines 242-258, `normalize_stop_positions`.  Returns
`(first, last, positions)` with positions rescaled into `[0, 1]` when the
span is nonzero, and all zeros otherwise. -/
def normalize_stop_positions (positions : List ℚ) : ℚ × ℚ × List ℚ :=
  let first := positions.headD 0
  let last := positions.getLastD 0
  let total_length := last - first
  if total_length = 0 then (first, last, positions.map fun _ => 0)
  else (first, last, positions.map fun p => (p - first) / total_length)

/-- Premultiply the color channels by alpha (lines 272-275). -/
def premultiply (c : RGBA) : RGBA := ⟨c.r * c.a, c.g * c.a, c.b * c.a, c.a⟩

def addRGBA (x y : RGBA) : RGBA := ⟨x.r + y.r, x.g + y.g, x.b + y.b, x.a + y.a⟩

def smulRGBA (w : ℚ) (x : RGBA) : RGBA := ⟨w * x.r, w * x.g, w * x.b, w * x.a⟩

/-- Lines 276-284: the accumulation loop of `gradient_average_color`; each
adjacent pair contributes its trapezoid weight to both endpoints, on
premultiplied channels and alpha. -/
def gac_sum (total_weight : ℚ) : List RGBA → List ℚ → RGBA
  | c₀ :: c₁ :: cs, p₀ :: p₁ :: ps =>
      addRGBA (smulRGBA ((p₁ - p₀) / total_weight) (addRGBA c₀ c₁))
        (gac_sum total_weight (c₁ :: cs) (p₁ :: ps))
  | _, _ => ⟨0, 0, 0, 0⟩

/-- Lines 261-287, `gradient_average_color`.  When the span is zero the
stops are re-spaced at indices `0 .. n-1`; the result is un-premultiplied
unless the accumulated alpha is zero, in which case it is transparent
black. -/
def gradient_average_color (colors : List RGBA) (positions : List ℚ) : RGBA :=
  let nb_stops := positions.length
  let tl0 := positions.getLastD 0 - positions.headD 0
  let pos := if tl0 = 0 then (List.range nb_stops).map (fun (i : ℕ) => (i : ℚ)) else positions
  let total_length := if tl0 = 0 then ((nb_stops : ℚ) - 1) else tl0
  let s := gac_sum (2 * total_length) (colors.map premultiply) pos
  if s.a = 0 then ⟨0, 0, 0, 0⟩
  else ⟨s.r / s.a, s.g / s.a, s.b / s.a, s.a⟩

/-- The `type_` component of a layout result. -/
inductive PlanKind
  | solid
  | linear
  | radial
deriving DecidableEq, Repr

/-- The six-tuple `(cx0, cy0, r0, cx1, cy1, r1)` of a radial plan. -/
structure RadialPoints where
  cx0 : ℚ
  cy0 : ℚ
  r0 : ℚ
  cx1 : ℚ
  cy1 : ℚ
  r1 : ℚ
deriving DecidableEq, Repr

/-- The `points` component of a layout result. -/
inductive GPoints
  | noPts
  | linPts (x0 y0 x1 y1 : ℚ)
  | radPts (p : RadialPoints)
deriving DecidableEq, Repr

/-- The tuple `(scale_y, type_, points, positions, colors)` returned by
`layout`. -/
structure Plan where
  scale_y : ℚ
  type_ : PlanKind
  points : GPoints
  positions : List ℚ
  colors : List RGBA
deriving DecidableEq, Repr

/-- The solid-color return `(1, solid, None, [], [color])`. -/
def solidPlan (c : RGBA) : Plan := ⟨1, .solid, .noPts, [], [c]⟩

/-- Lines 400-402 (linear): duplicate the first color at `positions[0] - 1`
when the first two positions coincide. -/
def pad_front (positions : List ℚ) (colors : List RGBA) : List ℚ × List RGBA :=
  match positions with
  | p₀ :: p₁ :: _ =>
      if p₀ = p₁ then ((p₀ - 1) :: positions, colors.headD dRGBA :: colors)
      else (positions, colors)
  | _ => (positions, colors)

/-- Lines 403-405 and 466-468: duplicate the last color at
`positions[-1] + 1` when the last two positions coincide. -/
def pad_back (positions : List ℚ) (colors : List RGBA) : List ℚ × List RGBA :=
  match positions.getLast?, positions.dropLast.getLast? with
  | some pl, some pl2 =>
      if pl2 = pl then (positions ++ [pl + 1], colors ++ [colors.getLastD dRGBA])
      else (positions, colors)
  | _, _ => (positions, colors)

/-- Lines 463-465 (radial): duplicate the first color at position 0 when
the first two positions coincide and are positive. -/
def radial_pad_front (positions : List ℚ) (colors : List RGBA) : List ℚ × List RGBA :=
  match positions with
  | p₀ :: p₁ :: _ =>
      if 0 < p₀ ∧ p₀ = p₁ then (0 :: positions, colors.headD dRGBA :: colors)
      else (positions, colors)
  | _ => (positions, colors)

/-- Lines 371-421, `LinearGradient.layout`.  `dx`, `dy` stand for the
direction unit vector computed at lines 378-391 from the corner keyword or
the angle (a real number; theorems quantify over its rational values). -/
def linear_layout (repeating : Bool) (colors0 : List RGBA)
    (stop_positions : List (Option Dimension)) (width height dx dy : ℚ) : Plan :=
  if colors0.length = 1 then solidPlan (colors0.headD dRGBA)
  else
    let vector_length := |width * dx| + |height * dy|
    let positions := process_color_stops vector_length stop_positions
    let pc :=
      if repeating then (positions, colors0)
      else
        let q := pad_front positions colors0
        pad_back q.1 q.2
    let n := normalize_stop_positions pc.1
    if n.1 = n.2.1 ∧ repeating = true then
      solidPlan (gradient_average_color pc.2 n.2.2)
    else
      let start_x := (width - dx * vector_length) / 2
      let start_y := (height - dy * vector_length) / 2
      ⟨1, .linear,
        .linPts (start_x + dx * n.1) (start_y + dy * n.1)
          (start_x + dx * n.2.1) (start_y + dy * n.2.1),
        n.2.2, pc.2⟩

/-- Lines 629-643, `RadialGradient._handle_degenerate`. -/
def handle_degenerate (size_x size_y : ℚ) : ℚ × ℚ :=
  if size_x = 0 ∧ size_y = 0 then (1 / 10 ^ 7, 1 / 10 ^ 7)
  else if size_x = 0 then (1 / 10 ^ 7, 10 ^ 7)
  else if size_y = 0 then (10 ^ 7, 1 / 10 ^ 7)
  else (size_x, size_y)

/-- Outcome of the negative-position handling (lines 469-497): either an
early solid-color return or the updated stop lists. -/
inductive NegResult
  | solidC (c : RGBA)
  | cont (positions : List ℚ) (colors : List RGBA)
deriving DecidableEq, Repr

/-- Lines 481-497: scan forward for the first position that is zero (keep
the suffix) or positive (prepend a synthetic stop at 0 whose color is the
average of the bracketing pair over `[previous_position, position]`).
`pc`, `pp` are the color and position of the previous rank. -/
def neg_scan : RGBA → ℚ → List ℚ → List RGBA → List ℚ × List RGBA
  | _, _, [], cs => ([], cs)
  | _, _, ps, [] => (ps, [])
  | pc, pp, p :: ps, c :: cs =>
      if p = 0 then (p :: ps, c :: cs)
      else if 0 < p then
        (0 :: p :: ps,
          gradient_average_color [pc, pc, c, c] [pp, 0, 0, p] :: c :: cs)
      else neg_scan c p ps cs

/-- Lines 469-497: shift or truncate stops with negative positions.
`gradient_colors` is the untouched stop-color tuple `self.colors` used by
the all-negative solid return at line 480.  The repeating branch divides
by `positions[-1] - positions[0]`; when that span is zero Python raises
`ZeroDivisionError`, modelled as `none`. -/
def radial_negative (repeating : Bool) (positions : List ℚ) (colors : List RGBA)
    (gradient_colors : List RGBA) : Option NegResult :=
  match positions.head? with
  | none => some (.cont positions colors)
  | some p₀ =>
      if p₀ < 0 then
        if repeating then
          let vector_length := positions.getLastD 0 - p₀
          if vector_length = 0 then none
          else
            let offset := vector_length * (1 + ((⌊-p₀ / vector_length⌋ : ℤ) : ℚ))
            some (.cont (positions.map fun p => p + offset) colors)
        else
          if positions.getLastD 0 ≤ 0 then some (.solidC (gradient_colors.getLastD dRGBA))
          else
            match positions, colors with
            | p :: ps, c :: cs =>
                let r := neg_scan c p ps cs
                some (.cont r.1 r.2)
            | _, _ => some (.cont positions colors)
      else some (.cont positions colors)

/-- Python `int()` on a rational: truncation toward zero. -/
def rat_trunc (q : ℚ) : ℤ := if 0 ≤ q then ⌊q⌋ else ⌈q⌉

/-- Concatenate `f i ++ f (i+1) ++ ... ++ f (i+n-1)`; models Python list
repetition and the nested list comprehensions of `_repeat`. -/
def iterCat {α : Type} : ℕ → ℕ → (ℕ → List α) → List α
  | _, 0, _ => []
  | i, n + 1, f => f i ++ iterCat (i + 1) n f

/-- Python slice `l[-k:]` (for `k = 0` this is the whole list). -/
def sliceNeg {α : Type} (l : List α) (k : ℕ) : List α :=
  if k = 0 then l else l.drop (l.length - k)

/-- Python index `l[-k]` (for `k = 0` this is `l[0]`). -/
def negIdx {α : Type} (d : α) (l : List α) (k : ℕ) : α :=
  if k = 0 then l.headD d else l.getD (l.length - k) d

/-- Lines 569-598: walk the reversed original positions (1-based index `i`)
looking for where `ratio` falls; splice the corresponding trailing
sub-range (shifted by `-full_repeat - 1`) in front of the accumulated
lists.  The Python loop can fall through and return `None`, modelled as
`none`. -/
def repeat_scan (full_repeat : ℤ) (original_positions : List ℚ)
    (original_colors : List RGBA) (ratio : ℚ) :
    ℕ → List ℚ → List ℚ → List RGBA → Option (List ℚ × List RGBA)
  | _, [], _, _ => none
  | i, p :: rest, positions, colors =>
      if p = ratio then
        some ((sliceNeg original_positions i).map (fun q => q - (full_repeat : ℚ) - 1)
            ++ positions,
          sliceNeg original_colors i ++ colors)
      else if p < ratio then
        let color := negIdx dRGBA original_colors i
        let next_color := negIdx dRGBA original_colors (i - 1)
        let next_position := negIdx 0 original_positions (i - 1)
        some ((ratio - 1 - (full_repeat : ℚ)) ::
            ((sliceNeg original_positions (i - 1)).map fun q => q - 1 - (full_repeat : ℚ))
            ++ positions,
          gradient_average_color [color, color, next_color, next_color]
            [p, ratio, ratio, next_position] :: sliceNeg original_colors (i - 1) ++ colors)
      else repeat_scan full_repeat original_positions original_colors ratio
        (i + 1) rest positions colors

/-- Lines 539-598, the inward part of `RadialGradient._repeat`, entered
after the outward extension with the (possibly extended) state.
`positions0`, `colors0` are the original lists saved at lines 519-520 and
`gradient_length` the period computed at line 521.  The two `assert`
statements at lines 567-568 are modelled as guards returning `none` on
failure, and the reverse scan returning `None` on fall-through is `none`
as well. -/
def radial_repeat_inward (gradient_length : ℚ) (positions0 : List ℚ)
    (colors0 : List RGBA) (points : RadialPoints) (positions : List ℚ)
    (colors : List RGBA) : Option (RadialPoints × List ℚ × List RGBA) :=
  if points.r0 = 0 then some (points, positions, colors)
  else
    let repeat_before := points.r0 / gradient_length
    let pts := { points with r0 := 0 }
    let full_repeat := rat_trunc repeat_before
    let st2 :=
      if full_repeat ≠ 0 then
        ((iterCat 0 full_repeat.toNat fun i =>
            positions0.map fun p => (i : ℚ) - (full_repeat : ℚ) + p) ++ positions,
          colors ++ iterCat 0 full_repeat.toNat fun _ => colors0)
      else (positions, colors)
    let frac_repeat := repeat_before - (full_repeat : ℚ)
    if frac_repeat = 0 then some (pts, st2.1, st2.2)
    else
      if positions0.head? = some 0 ∧ positions0.getLast? = some 1 then
        if 0 < frac_repeat ∧ frac_repeat < 1 then
          match repeat_scan full_repeat positions0 colors0 (1 - frac_repeat) 1
              positions0.reverse st2.1 st2.2 with
          | some r => some (pts, r.1, r.2)
          | none => none
        else none
      else none

/-- Lines 517-598, `RadialGradient._repeat`.  `max_distance` stands for the
maximum of the four center-to-corner Euclidean distances computed at lines
525-529 (a real number; theorems quantify over its rational values).
Lines 525-537 extend the state outward; the rest is
`radial_repeat_inward`. -/
def radial_repeat (max_distance : ℚ) (points0 : RadialPoints)
    (positions0 : List ℚ) (colors0 : List RGBA) :
    Option (RadialPoints × List ℚ × List RGBA) :=
  let gradient_length := points0.r1 - points0.r0
  let repeat_after : ℤ := ⌈(max_distance - points0.r1) / gradient_length⌉
  let st :=
    if 0 < repeat_after then
      ({ points0 with r1 := points0.r1 + gradient_length * (repeat_after : ℚ) },
        iterCat 0 (1 + repeat_after).toNat fun i => positions0.map fun p => (i : ℚ) + p,
        iterCat 0 (1 + repeat_after).toNat fun _ => colors0)
    else (points0, positions0, colors0)
  radial_repeat_inward gradient_length positions0 colors0 st.1 st.2.1 st.2.2

/-- Lines 438-515, `RadialGradient.layout`.  `resolved_size_x`,
`resolved_size_y` stand for the result of `_resolve_size` at lines 600-627
(keyword sizes involve square roots; theorems quantify over their rational
values), and `max_distance` parameterizes `_repeat` as described there. -/
def radial_layout (repeating : Bool) (colors0 : List RGBA)
    (stop_positions : List (Option Dimension)) (width height : ℚ)
    (origin_x_right : Bool) (center_x0 : Dimension)
    (origin_y_bottom : Bool) (center_y0 : Dimension)
    (resolved_size_x resolved_size_y : ℚ) (max_distance : ℚ) : Option Plan :=
  if colors0.length = 1 then some (solidPlan (colors0.headD dRGBA))
  else
    let cxp := percentage center_x0 width
    let cyp := percentage center_y0 height
    let center_x := if origin_x_right then width - cxp else cxp
    let center_y := if origin_y_bottom then height - cyp else cyp
    let sd := handle_degenerate resolved_size_x resolved_size_y
    let scale_y := sd.2 / sd.1
    let positions := process_color_stops sd.1 stop_positions
    let pc :=
      if repeating then (positions, colors0)
      else
        let q := radial_pad_front positions colors0
        pad_back q.1 q.2
    match radial_negative repeating pc.1 pc.2 colors0 with
    | none => none
    | some (.solidC c) => some (solidPlan c)
    | some (.cont ps cs) =>
        let n := normalize_stop_positions ps
        if n.1 = n.2.1 ∧ repeating = true then
          some (solidPlan (gradient_average_color cs n.2.2))
        else
          let pts : RadialPoints :=
            ⟨center_x, center_y / scale_y, n.1, center_x, center_y / scale_y, n.2.1⟩
          if repeating then
            match radial_repeat max_distance pts n.2.2 cs with
            | none => none
            | some r => some ⟨scale_y, .radial, .radPts r.1, r.2.1, r.2.2⟩
          else some ⟨scale_y, .radial, .radPts pts, n.2.2, cs⟩

end Weasy
namespace Weasy

/-! ### Generic list facts -/

theorem chain'_le_getLast {l : List ℚ} (h : List.Chain' (· ≤ ·) l) :
    ∀ p ∈ l, p ≤ l.getLastD 0 := by
  induction l with
  | nil => simp
  | cons x t ih =>
      intro p hp
      cases t with
      | nil => simp at hp; simp [hp]
      | cons y u =>
          rw [List.chain'_cons] at h
          rw [List.getLastD_cons, List.getLastD_eq_getLast?]
          rcases List.mem_cons.1 hp with rfl | hp'
          · calc p ≤ y := h.1
              _ ≤ (y :: u).getLastD 0 := ih h.2 y (by simp)
              _ = ((y :: u).getLast?).getD 0 := by rw [List.getLastD_eq_getLast?]
          · calc p ≤ (y :: u).getLastD 0 := ih h.2 p hp'
              _ = ((y :: u).getLast?).getD 0 := by rw [List.getLastD_eq_getLast?]

theorem chain'_head_le {l : List ℚ} (h : List.Chain' (· ≤ ·) l) :
    ∀ p ∈ l, l.headD 0 ≤ p := by
  induction l with
  | nil => simp
  | cons x t ih =>
      intro p hp
      rcases List.mem_cons.1 hp with rfl | hp'
      · simp
      · cases t with
        | nil => simp at hp'
        | cons y u =>
            rw [List.chain'_cons] at h
            simp only [List.headD_cons]
            calc x ≤ y := h.1
              _ = (y :: u).headD 0 := by simp
              _ ≤ p := ih h.2 p hp'

theorem length_ge_two_of_head_ne_last {l : List ℚ} {a b : ℚ}
    (ha : l.head? = some a) (hb : l.getLast? = some b) (hne : a ≠ b) :
    2 ≤ l.length := by
  match l, ha with
  | [x], ha =>
      simp at ha hb
      exact absurd (ha.symm.trans hb) hne
  | x :: y :: t, _ => simp

end Weasy
namespace Weasy

/-! ### Length preservation through stop resolution -/

theorem clamp_pass_length (v : ℚ) (l : List (Option ℚ)) :
    (clamp_pass v l).length = l.length := by
  induction l generalizing v with
  | nil => rfl
  | cons o rest ih =>
      cases o with
      | none => simp [clamp_pass, ih]
      | some p =>
          simp only [clamp_pass]
          split <;> simp [ih]

theorem fill_aux_length (b : ℚ) (bi j buf : ℕ) (l : List (Option ℚ)) :
    (fill_aux b bi j buf l).length = buf + l.length := by
  induction l generalizing b bi j buf with
  | nil =>
      show ((List.range' (j - buf) buf).map fun _ => (0 : ℚ)).length = buf + 0
      rw [List.length_map, List.length_range']
      omega
  | cons o rest ih =>
      cases o with
      | none =>
          simp only [fill_aux, ih, List.length_cons]
          omega
      | some v =>
          simp only [fill_aux, List.length_append, List.length_map, List.length_range',
            List.length_cons, ih]
          omega

theorem set_first_length (l : List (Option ℚ)) : (set_first l).length = l.length := by
  match l with
  | [] => rfl
  | none :: rest => rfl
  | some p :: rest => rfl

theorem set_last_length (vl : ℚ) (l : List (Option ℚ)) :
    (set_last vl l).length = l.length := by
  unfold set_last
  split
  · next heq =>
      have hne : l ≠ [] := by intro h; subst h; simp at heq
      simp [List.length_dropLast]
      have := List.length_pos.2 hne
      omega
  · rfl

theorem process_color_stops_length (vl : ℚ) (st : List (Option Dimension)) :
    (process_color_stops vl st).length = st.length := by
  simp only [process_color_stops]
  have hlen : (set_last vl (set_first (st.map fun p => p.map (percentage · vl)))).length
      = st.length := by
    rw [set_last_length, set_first_length, List.length_map]
  split
  · next heq => rw [heq] at hlen; simpa using hlen
  · next p₀ rest heq =>
      rw [heq] at hlen
      simp only [List.length_cons, fill_aux_length, clamp_pass_length] at *
      omega

end Weasy
namespace Weasy

theorem getLast?_cons_ne {α : Type} (a : α) {l : List α} (h : l ≠ []) :
    (a :: l).getLast? = l.getLast? := by
  cases l with
  | nil => exact absurd rfl h
  | cons b t => rw [List.getLast?_cons_cons]

theorem clamp_pass_ne_nil {v : ℚ} {l : List (Option ℚ)} (h : l ≠ []) :
    clamp_pass v l ≠ [] := by
  intro hc
  have := clamp_pass_length v l
  rw [hc] at this
  exact h (List.length_eq_zero.1 this.symm)

theorem fill_aux_ne_nil {b : ℚ} {bi j buf : ℕ} {l : List (Option ℚ)} (h : l ≠ []) :
    fill_aux b bi j buf l ≠ [] := by
  intro hc
  have hl := fill_aux_length b bi j buf l
  rw [hc] at hl
  simp only [List.length_nil] at hl
  have : l.length = 0 := by omega
  exact h (List.length_eq_zero.1 this)

theorem clamp_pass_getLast_ge (v : ℚ) {l : List (Option ℚ)} {x : ℚ}
    (h : l.getLast? = some (some x)) :
    ∃ y, (clamp_pass v l).getLast? = some (some y) ∧ v ≤ y := by
  induction l generalizing v with
  | nil => simp at h
  | cons o rest ih =>
      cases rest with
      | nil =>
          simp only [List.getLast?_singleton, Option.some.injEq] at h
          subst h
          by_cases hx : x < v
          · exact ⟨v, by simp [clamp_pass, hx], le_refl v⟩
          · exact ⟨x, by simp [clamp_pass, hx], not_lt.1 hx⟩
      | cons o2 rest2 =>
          rw [List.getLast?_cons_cons] at h
          have hne : (o2 :: rest2 : List (Option ℚ)) ≠ [] := by simp
          cases o with
          | none =>
              obtain ⟨y, hy, hvy⟩ := ih v h
              refine ⟨y, ?_, hvy⟩
              rw [show clamp_pass v (none :: o2 :: rest2)
                  = none :: clamp_pass v (o2 :: rest2) from rfl,
                getLast?_cons_ne _ (clamp_pass_ne_nil hne), hy]
          | some p =>
              by_cases hp : p < v
              · obtain ⟨y, hy, hvy⟩ := ih v h
                refine ⟨y, ?_, hvy⟩
                rw [show clamp_pass v (some p :: o2 :: rest2)
                    = some v :: clamp_pass v (o2 :: rest2) from by simp [clamp_pass, hp],
                  getLast?_cons_ne _ (clamp_pass_ne_nil hne), hy]
              · obtain ⟨y, hy, hvy⟩ := ih p h
                refine ⟨y, ?_, le_trans (not_lt.1 hp) hvy⟩
                rw [show clamp_pass v (some p :: o2 :: rest2)
                    = some p :: clamp_pass p (o2 :: rest2) from by simp [clamp_pass, hp],
                  getLast?_cons_ne _ (clamp_pass_ne_nil hne), hy]

theorem clamp_pass_getLast_le {B v : ℚ} {l : List (Option ℚ)} (hv : v ≤ B)
    (hall : ∀ o ∈ l, ∀ q, o = some q → q ≤ B) (h : l.getLast? = some (some B)) :
    (clamp_pass v l).getLast? = some (some B) := by
  induction l generalizing v with
  | nil => simp at h
  | cons o rest ih =>
      cases rest with
      | nil =>
          simp only [List.getLast?_singleton, Option.some.injEq] at h
          subst h
          have : ¬ B < v := not_lt.2 hv
          simp [clamp_pass, this]
      | cons o2 rest2 =>
          rw [List.getLast?_cons_cons] at h
          have hne : (o2 :: rest2 : List (Option ℚ)) ≠ [] := by simp
          have hall' : ∀ o ∈ o2 :: rest2, ∀ q, o = some q → q ≤ B := by
            intro o ho
            exact hall o (List.mem_cons_of_mem _ ho)
          cases o with
          | none =>
              rw [show clamp_pass v (none :: o2 :: rest2)
                  = none :: clamp_pass v (o2 :: rest2) from rfl,
                getLast?_cons_ne _ (clamp_pass_ne_nil hne)]
              exact ih hv hall' h
          | some p =>
              have hpB : p ≤ B := hall (some p) (by simp) p rfl
              by_cases hp : p < v
              · rw [show clamp_pass v (some p :: o2 :: rest2)
                    = some v :: clamp_pass v (o2 :: rest2) from by simp [clamp_pass, hp],
                  getLast?_cons_ne _ (clamp_pass_ne_nil hne)]
                exact ih hv hall' h
              · rw [show clamp_pass v (some p :: o2 :: rest2)
                    = some p :: clamp_pass p (o2 :: rest2) from by simp [clamp_pass, hp],
                  getLast?_cons_ne _ (clamp_pass_ne_nil hne)]
                exact ih hpB hall' h

theorem fill_aux_getLast {l : List (Option ℚ)} {x : ℚ}
    (h : l.getLast? = some (some x)) (b : ℚ) (bi j buf : ℕ) :
    (fill_aux b bi j buf l).getLast? = some x := by
  induction l generalizing b bi j buf with
  | nil => simp at h
  | cons o rest ih =>
      cases rest with
      | nil =>
          simp only [List.getLast?_singleton, Option.some.injEq] at h
          subst h
          show (((List.range' (j - buf) buf).map fun (k : ℕ) =>
              b + (k : ℚ) * ((x - b) / ((j : ℚ) - (bi : ℚ)))) ++
            x :: fill_aux x j (j + 1) 0 []).getLast? = some x
          rw [List.getLast?_append]
          rfl
      | cons o2 rest2 =>
          rw [List.getLast?_cons_cons] at h
          have hne : (o2 :: rest2 : List (Option ℚ)) ≠ [] := by simp
          cases o with
          | none => exact ih h b bi (j + 1) (buf + 1)
          | some v =>
              show (((List.range' (j - buf) buf).map fun (k : ℕ) =>
                  b + (k : ℚ) * ((v - b) / ((j : ℚ) - (bi : ℚ)))) ++
                v :: fill_aux v j (j + 1) 0 (o2 :: rest2)).getLast? = some x
              rw [List.getLast?_append, getLast?_cons_ne _ (fill_aux_ne_nil hne),
                ih h v j (j + 1) 0]
              rfl

end Weasy
namespace Weasy

theorem set_first_ne_nil {l : List (Option ℚ)} (h : l ≠ []) : set_first l ≠ [] := by
  intro hc
  have := set_first_length l
  rw [hc] at this
  exact h (List.length_eq_zero.1 this.symm)

theorem set_first_head_none {l : List (Option ℚ)} (h : l.head? = some none) :
    (set_first l).head? = some (some 0) := by
  match l, h with
  | none :: rest, _ => rfl

theorem set_first_head_some {l : List (Option ℚ)} {p : ℚ} (h : l.head? = some (some p)) :
    (set_first l).head? = some (some p) := by
  match l, h with
  | some q :: rest, h =>
      obtain rfl : q = p := by simpa using h
      rfl

theorem set_last_getLast (vl : ℚ) {l : List (Option ℚ)} (h : l ≠ []) :
    ∃ z, (set_last vl l).getLast? = some (some z) ∧
      (z = vl ∨ l.getLast? = some (some z)) := by
  unfold set_last
  cases heq : l.getLast? with
  | none => exact absurd (List.getLast?_eq_none_iff.1 heq) h
  | some o =>
      cases o with
      | none =>
          refine ⟨vl, ?_, Or.inl rfl⟩
          simp only [List.getLast?_concat]
      | some z =>
          dsimp only
          exact ⟨z, heq, Or.inr rfl⟩

theorem set_last_head_of_some {l : List (Option ℚ)} {a : ℚ} (vl : ℚ)
    (h : l.head? = some (some a)) : (set_last vl l).head? = some (some a) := by
  match l, h with
  | [o], h =>
      simp only [List.head?_cons, Option.some.injEq] at h
      subst h
      rfl
  | o1 :: o2 :: t, h =>
      simp only [List.head?_cons, Option.some.injEq] at h
      subst h
      unfold set_last
      cases heq : (some a :: o2 :: t : List (Option ℚ)).getLast? with
      | none => simp at heq
      | some o =>
          cases o with
          | none => rfl
          | some z => rfl

theorem process_eq_cons {vl : ℚ} {st : List (Option Dimension)} {a : ℚ}
    {rest : List (Option ℚ)}
    (h : set_last vl (set_first (st.map fun p => p.map (percentage · vl)))
      = some a :: rest) :
    process_color_stops vl st = a :: fill_aux a 0 1 0 (clamp_pass a rest) := by
  simp only [process_color_stops]
  rw [h]
  rfl

end Weasy
namespace Weasy

theorem process_ne_nil {vl : ℚ} {st : List (Option Dimension)} (h : st ≠ []) :
    process_color_stops vl st ≠ [] := by
  intro hc
  have := process_color_stops_length vl st
  rw [hc] at this
  exact h (List.length_eq_zero.1 this.symm)

theorem positions_head_set {vl : ℚ} {st : List (Option Dimension)} (h : st ≠ []) :
    ∃ a, (set_last vl (set_first (st.map fun p => p.map (percentage · vl)))).head?
      = some (some a) ∧
      ((st.head? = some none ∧ a = 0) ∨
        ∃ d, st.head? = some (some d) ∧ a = percentage d vl) := by
  have hL : (st.map fun p => p.map (percentage · vl)) ≠ [] := by
    simpa using h
  cases hst : st.head? with
  | none => exact absurd (List.head?_eq_none_iff.1 hst) h
  | some o =>
      have hLh : (st.map fun p => p.map (percentage · vl)).head?
          = some (o.map (percentage · vl)) := by
        rw [List.head?_map, hst]
        rfl
      cases o with
      | none =>
          refine ⟨0, ?_, Or.inl ⟨rfl, rfl⟩⟩
          exact set_last_head_of_some vl (set_first_head_none hLh)
      | some d =>
          refine ⟨percentage d vl, ?_, Or.inr ⟨d, rfl, rfl⟩⟩
          exact set_last_head_of_some vl (set_first_head_some hLh)

theorem process_head_first_unset {vl : ℚ} {st : List (Option Dimension)}
    (h : st.head? = some none) :
    (process_color_stops vl st).head? = some 0 := by
  have hne : st ≠ [] := by
    intro hc
    rw [hc] at h
    simp at h
  obtain ⟨a, ha, hcase⟩ := @positions_head_set vl _ hne
  have ha0 : a = 0 := by
    rcases hcase with ⟨_, h0⟩ | ⟨d, hd, _⟩
    · exact h0
    · rw [h] at hd
      simp at hd
  subst ha0
  obtain ⟨rest, hpos⟩ : ∃ rest,
      set_last vl (set_first (st.map fun p => p.map (percentage · vl)))
        = some 0 :: rest := by
    cases hl : set_last vl (set_first (st.map fun p => p.map (percentage · vl))) with
    | nil => rw [hl] at ha; simp at ha
    | cons p₀ r =>
        rw [hl] at ha
        simp only [List.head?_cons, Option.some.injEq] at ha
        exact ⟨r, by rw [ha]⟩
  rw [process_eq_cons hpos]
  rfl

theorem process_head_le_getLast {vl : ℚ} {st : List (Option Dimension)} (h : st ≠ []) :
    (process_color_stops vl st).headD 0 ≤ (process_color_stops vl st).getLastD 0 := by
  obtain ⟨a, ha, _⟩ := @positions_head_set vl _ h
  obtain ⟨rest, hpos⟩ : ∃ rest,
      set_last vl (set_first (st.map fun p => p.map (percentage · vl)))
        = some a :: rest := by
    cases hl : set_last vl (set_first (st.map fun p => p.map (percentage · vl))) with
    | nil => rw [hl] at ha; simp at ha
    | cons p₀ r =>
        rw [hl] at ha
        simp only [List.head?_cons, Option.some.injEq] at ha
        exact ⟨r, by rw [ha]⟩
  rw [process_eq_cons hpos]
  cases hrest : rest with
  | nil => simp [fill_aux, clamp_pass, List.range']
  | cons r₀ rs =>
      have hrne : rest ≠ [] := by rw [hrest]; simp
      have hLne : (st.map fun p => p.map (percentage · vl)) ≠ [] := by simpa using h
      obtain ⟨z, hz, _⟩ := set_last_getLast vl (set_first_ne_nil hLne)
      rw [hpos, getLast?_cons_ne _ hrne] at hz
      obtain ⟨y, hy, hay⟩ := clamp_pass_getLast_ge a hz
      have hfill := fill_aux_getLast hy a 0 1 0
      rw [List.headD_cons, List.getLastD_cons, List.getLastD_eq_getLast?, ← hrest, hfill]
      simpa using hay

end Weasy
namespace Weasy

theorem set_first_mem {o : Option ℚ} {l : List (Option ℚ)} (h : o ∈ set_first l) :
    o ∈ l ∨ o = some 0 := by
  match l with
  | [] => simp [set_first] at h
  | none :: rest =>
      rcases List.mem_cons.1 h with rfl | h'
      · exact Or.inr rfl
      · exact Or.inl (List.mem_cons_of_mem _ h')
  | some p :: rest => exact Or.inl h

theorem set_last_mem {vl : ℚ} {o : Option ℚ} {l : List (Option ℚ)}
    (h : o ∈ set_last vl l) : o ∈ l ∨ o = some vl := by
  unfold set_last at h
  split at h
  · rcases List.mem_append.1 h with h' | h'
    · exact Or.inl ((List.dropLast_sublist _).subset h')
    · simp at h'
      exact Or.inr h'
  · exact Or.inl h

theorem set_first_getLast {l : List (Option ℚ)} (h : 2 ≤ l.length) :
    (set_first l).getLast? = l.getLast? := by
  match l, h with
  | o :: o2 :: t, _ =>
      cases o with
      | none => rw [show set_first (none :: o2 :: t) = some 0 :: o2 :: t from rfl,
          List.getLast?_cons_cons, List.getLast?_cons_cons]
      | some p => rfl

theorem process_getLast_unset {vl : ℚ} {st : List (Option Dimension)}
    (hlen : 2 ≤ st.length) (hlast : st.getLast? = some none) (h0 : 0 ≤ vl)
    (hb : ∀ d ∈ st, ∀ x, d = some x → percentage x vl ≤ vl) :
    (process_color_stops vl st).getLast? = some vl := by
  have hne : st ≠ [] := by
    intro hc
    rw [hc] at hlen
    simp at hlen
  have hLlast : (st.map fun p => p.map (percentage · vl)).getLast? = some none := by
    rw [List.getLast?_map, hlast]
    rfl
  have hLlen : (st.map fun p => p.map (percentage · vl)).length = st.length := by
    rw [List.length_map]
  have hFlast : (set_first (st.map fun p => p.map (percentage · vl))).getLast?
      = some none := by
    rw [set_first_getLast (by omega), hLlast]
  have hposEq : set_last vl (set_first (st.map fun p => p.map (percentage · vl)))
      = (set_first (st.map fun p => p.map (percentage · vl))).dropLast ++ [some vl] := by
    unfold set_last
    rw [hFlast]
  have hposLast : (set_last vl (set_first (st.map fun p => p.map (percentage · vl)))).getLast?
      = some (some vl) := by
    rw [hposEq, List.getLast?_concat]
  obtain ⟨a, ha, hacase⟩ := @positions_head_set vl _ hne
  have haB : a ≤ vl := by
    rcases hacase with ⟨_, h0a⟩ | ⟨d, hd, hpa⟩
    · rw [h0a]; exact h0
    · rw [hpa]
      exact hb (some d) (List.mem_of_mem_head? (by rw [hd]; rfl)) d rfl
  obtain ⟨rest, hpos⟩ : ∃ rest,
      set_last vl (set_first (st.map fun p => p.map (percentage · vl)))
        = some a :: rest := by
    cases hl : set_last vl (set_first (st.map fun p => p.map (percentage · vl))) with
    | nil => rw [hl] at ha; simp at ha
    | cons p₀ r =>
        rw [hl] at ha
        simp only [List.head?_cons, Option.some.injEq] at ha
        exact ⟨r, by rw [ha]⟩
  have hrne : rest ≠ [] := by
    intro hc
    have : (set_last vl (set_first (st.map fun p => p.map (percentage · vl)))).length
        = st.length := by
      rw [set_last_length, set_first_length, hLlen]
    rw [hpos, hc] at this
    simp at this
    omega
  have hrlast : rest.getLast? = some (some vl) := by
    rw [hpos, getLast?_cons_ne _ hrne] at hposLast
    exact hposLast
  have hallB : ∀ o ∈ rest, ∀ q, o = some q → q ≤ vl := by
    intro o ho q hq
    subst hq
    have hom : some q ∈ set_last vl (set_first (st.map fun p => p.map (percentage · vl))) := by
      rw [hpos]
      exact List.mem_cons_of_mem _ ho
    rcases set_last_mem hom with hom' | hom'
    · rcases set_first_mem hom' with hom'' | hom''
      · obtain ⟨d, hdmem, hdq⟩ := List.mem_map.1 hom''
        cases d with
        | none => simp at hdq
        | some x =>
            have : percentage x vl = q := by simpa using hdq
            rw [← this]
            exact hb (some x) hdmem x rfl
      · have : q = 0 := by simpa using hom''
        rw [this]
        exact h0
    · have : q = vl := by simpa using hom'
      rw [this]
  have hclamp := clamp_pass_getLast_le haB hallB hrlast
  have hfill := fill_aux_getLast hclamp a 0 1 0
  rw [process_eq_cons hpos, getLast?_cons_ne _ (fill_aux_ne_nil (clamp_pass_ne_nil hrne)), hfill]
end Weasy
namespace Weasy

theorem set_first_eq_of_head_some {l : List (Option ℚ)} {p : ℚ}
    (h : l.head? = some (some p)) : set_first l = l := by
  match l, h with
  | some q :: rest, _ => rfl

theorem set_last_eq_of_getLast_some {l : List (Option ℚ)} {z : ℚ} (vl : ℚ)
    (h : l.getLast? = some (some z)) : set_last vl l = l := by
  unfold set_last
  rw [h]

theorem fill_aux_all_some {l : List (Option ℚ)} (h : ∀ o ∈ l, o ≠ none)
    (b : ℚ) (bi j : ℕ) :
    fill_aux b bi j 0 l = l.map (fun o => o.getD 0) := by
  induction l generalizing b bi j with
  | nil => rfl
  | cons o rest ih =>
      cases o with
      | none => exact absurd rfl (h none (by simp))
      | some v =>
          show ((List.range' (j - 0) 0).map fun (k : ℕ) =>
              b + (k : ℚ) * ((v - b) / ((j : ℚ) - (bi : ℚ)))) ++
            v :: fill_aux v j (j + 1) 0 rest = _
          rw [ih (fun o ho => h o (List.mem_cons_of_mem _ ho)) v j (j + 1)]
          rfl

theorem clamp_pass_all_some {l : List (Option ℚ)} (h : ∀ o ∈ l, o ≠ none) (v : ℚ) :
    ∀ o ∈ clamp_pass v l, o ≠ none := by
  induction l generalizing v with
  | nil => simp [clamp_pass]
  | cons o rest ih =>
      cases o with
      | none => exact absurd rfl (h none (by simp))
      | some p =>
          intro o' ho'
          have hrest : ∀ o ∈ rest, o ≠ none := fun o ho => h o (List.mem_cons_of_mem _ ho)
          by_cases hp : p < v
          · rw [show clamp_pass v (some p :: rest) = some v :: clamp_pass v rest
                from by simp [clamp_pass, hp]] at ho'
            rcases List.mem_cons.1 ho' with rfl | ho''
            · simp
            · exact ih hrest v o' ho''
          · rw [show clamp_pass v (some p :: rest) = some p :: clamp_pass p rest
                from by simp [clamp_pass, hp]] at ho'
            rcases List.mem_cons.1 ho' with rfl | ho''
            · simp
            · exact ih hrest p o' ho''

theorem clamp_pass_chain {l : List (Option ℚ)} (h : ∀ o ∈ l, o ≠ none) (v : ℚ) :
    List.Chain' (· ≤ ·) (v :: (clamp_pass v l).map (fun o => o.getD 0)) := by
  induction l generalizing v with
  | nil => simp [clamp_pass]
  | cons o rest ih =>
      cases o with
      | none => exact absurd rfl (h none (by simp))
      | some p =>
          have hrest : ∀ o ∈ rest, o ≠ none := fun o ho => h o (List.mem_cons_of_mem _ ho)
          by_cases hp : p < v
          · rw [show clamp_pass v (some p :: rest) = some v :: clamp_pass v rest
                from by simp [clamp_pass, hp]]
            exact List.Chain'.cons (by simp) (ih hrest v)
          · rw [show clamp_pass v (some p :: rest) = some p :: clamp_pass p rest
                from by simp [clamp_pass, hp]]
            exact List.Chain'.cons (by simpa using not_lt.1 hp) (ih hrest p)

theorem clamp_pass_in_bounds {lo hi v : ℚ} {l : List (Option ℚ)}
    (hlo : lo ≤ v) (hhi : v ≤ hi)
    (hall : ∀ o ∈ l, ∀ q, o = some q → lo ≤ q ∧ q ≤ hi) :
    ∀ o ∈ clamp_pass v l, ∀ q, o = some q → lo ≤ q ∧ q ≤ hi := by
  induction l generalizing v with
  | nil => simp [clamp_pass]
  | cons o rest ih =>
      have hrest : ∀ o ∈ rest, ∀ q, o = some q → lo ≤ q ∧ q ≤ hi :=
        fun o ho => hall o (List.mem_cons_of_mem _ ho)
      cases o with
      | none =>
          intro o' ho' q hq
          rcases List.mem_cons.1 ho' with rfl | ho''
          · simp at hq
          · exact ih hlo hhi hrest o' ho'' q hq
      | some p =>
          have hpB := hall (some p) (by simp) p rfl
          intro o' ho' q hq
          by_cases hp : p < v
          · rw [show clamp_pass v (some p :: rest) = some v :: clamp_pass v rest
                from by simp [clamp_pass, hp]] at ho'
            rcases List.mem_cons.1 ho' with rfl | ho''
            · obtain rfl : v = q := by simpa using hq
              exact ⟨hlo, hhi⟩
            · exact ih hlo hhi hrest o' ho'' q hq
          · rw [show clamp_pass v (some p :: rest) = some p :: clamp_pass p rest
                from by simp [clamp_pass, hp]] at ho'
            rcases List.mem_cons.1 ho' with rfl | ho''
            · obtain rfl : p = q := by simpa using hq
              exact hpB
            · exact ih hpB.1 hpB.2 hrest o' ho'' q hq

end Weasy
namespace Weasy

theorem process_all_set {vl : ℚ} {st : List (Option Dimension)}
    (hset : ∀ d ∈ st, d ≠ none)
    (hin : ∀ d ∈ st, ∀ x, d = some x → 0 ≤ percentage x vl ∧ percentage x vl ≤ vl) :
    List.Chain' (· ≤ ·) (process_color_stops vl st) ∧
    ∀ p ∈ process_color_stops vl st, 0 ≤ p ∧ p ≤ vl := by
  cases hst : st with
  | nil => simp [process_color_stops, set_first, set_last]
  | cons d₀ ds =>
      subst hst
      obtain ⟨x₀, hx₀⟩ : ∃ x, d₀ = some x := by
        cases d₀ with
        | none => exact absurd rfl (hset none (by simp))
        | some x => exact ⟨x, rfl⟩
      subst hx₀
      have hLsome : ∀ o ∈ ((some x₀ :: ds).map fun p => p.map (percentage · vl)),
          o ≠ none := by
        intro o ho
        obtain ⟨d, hdmem, hdo⟩ := List.mem_map.1 ho
        cases d with
        | none => exact absurd rfl (hset none hdmem)
        | some x => rw [← hdo]; simp
      have hLhead : ((some x₀ :: ds).map fun p => p.map (percentage · vl)).head?
          = some (some (percentage x₀ vl)) := rfl
      have hF : set_first ((some x₀ :: ds).map fun p => p.map (percentage · vl))
          = (some x₀ :: ds).map fun p => p.map (percentage · vl) :=
        set_first_eq_of_head_some hLhead
      obtain ⟨z, hz⟩ : ∃ z,
          ((some x₀ :: ds).map fun p => p.map (percentage · vl)).getLast?
            = some (some z) := by
        obtain ⟨o, hgl⟩ : ∃ o,
            ((some x₀ :: ds).map fun p => p.map (percentage · vl)).getLast? = some o := by
          cases hgl : ((some x₀ :: ds).map fun p => p.map (percentage · vl)).getLast? with
          | none => simp at hgl
          | some o => exact ⟨o, rfl⟩
        cases o with
        | none =>
            have hmem : (none : Option ℚ)
                ∈ (some x₀ :: ds).map fun p => p.map (percentage · vl) := by
              obtain ⟨h', heq⟩ := List.mem_getLast?_eq_getLast hgl
              rw [heq]
              exact List.getLast_mem h'
            exact absurd rfl (hLsome none hmem)
        | some z => exact ⟨z, hgl⟩
      have hS : set_last vl ((some x₀ :: ds).map fun p => p.map (percentage · vl))
          = (some x₀ :: ds).map fun p => p.map (percentage · vl) :=
        set_last_eq_of_getLast_some vl hz
      have hpos : set_last vl (set_first
          ((some x₀ :: ds).map fun p => p.map (percentage · vl)))
          = some (percentage x₀ vl) :: (ds.map fun p => p.map (percentage · vl)) := by
        rw [hF, hS]
        rfl
      rw [process_eq_cons hpos]
      have hdsome : ∀ o ∈ ds.map fun p => p.map (percentage · vl), o ≠ none := by
        intro o ho
        exact hLsome o (List.mem_cons_of_mem _ ho)
      have hcl := clamp_pass_all_some hdsome (percentage x₀ vl)
      rw [fill_aux_all_some hcl]
      have hx₀B := hin (some x₀) (by simp) x₀ rfl
      constructor
      · exact clamp_pass_chain hdsome (percentage x₀ vl)
      · intro p hp
        rcases List.mem_cons.1 hp with rfl | hp'
        · exact hx₀B
        · obtain ⟨o, ho, hop⟩ := List.mem_map.1 hp'
          have hbounds : ∀ o ∈ ds.map fun p => p.map (percentage · vl),
              ∀ q, o = some q → 0 ≤ q ∧ q ≤ vl := by
            intro o' ho' q hq
            subst hq
            obtain ⟨d, hdmem, hdo⟩ := List.mem_map.1 ho'
            cases d with
            | none => exact absurd rfl (hset none (List.mem_cons_of_mem _ hdmem))
            | some x =>
                have : percentage x vl = q := by simpa using hdo
                rw [← this]
                exact hin (some x) (List.mem_cons_of_mem _ hdmem) x rfl
          obtain ⟨q, hq⟩ : ∃ q, o = some q := by
            cases o with
            | none => exact absurd rfl (hcl none ho)
            | some q => exact ⟨q, rfl⟩
          subst hq
          rw [← hop]
          exact clamp_pass_in_bounds hx₀B.1 hx₀B.2 hbounds _ ho q rfl

end Weasy
namespace Weasy

theorem process_all_set_chain {vl : ℚ} {st : List (Option Dimension)}
    (hset : ∀ d ∈ st, d ≠ none) :
    List.Chain' (· ≤ ·) (process_color_stops vl st) := by
  cases hst : st with
  | nil => simp [process_color_stops, set_first, set_last]
  | cons d₀ ds =>
      subst hst
      obtain ⟨x₀, hx₀⟩ : ∃ x, d₀ = some x := by
        cases d₀ with
        | none => exact absurd rfl (hset none (by simp))
        | some x => exact ⟨x, rfl⟩
      subst hx₀
      have hLsome : ∀ o ∈ ((some x₀ :: ds).map fun p => p.map (percentage · vl)),
          o ≠ none := by
        intro o ho
        obtain ⟨d, hdmem, hdo⟩ := List.mem_map.1 ho
        cases d with
        | none => exact absurd rfl (hset none hdmem)
        | some x => rw [← hdo]; simp
      have hLhead : ((some x₀ :: ds).map fun p => p.map (percentage · vl)).head?
          = some (some (percentage x₀ vl)) := rfl
      have hF : set_first ((some x₀ :: ds).map fun p => p.map (percentage · vl))
          = (some x₀ :: ds).map fun p => p.map (percentage · vl) :=
        set_first_eq_of_head_some hLhead
      obtain ⟨z, hz⟩ : ∃ z,
          ((some x₀ :: ds).map fun p => p.map (percentage · vl)).getLast?
            = some (some z) := by
        obtain ⟨o, hgl⟩ : ∃ o,
            ((some x₀ :: ds).map fun p => p.map (percentage · vl)).getLast? = some o := by
          cases hgl : ((some x₀ :: ds).map fun p => p.map (percentage · vl)).getLast? with
          | none => simp at hgl
          | some o => exact ⟨o, rfl⟩
        cases o with
        | none =>
            have hmem : (none : Option ℚ)
                ∈ (some x₀ :: ds).map fun p => p.map (percentage · vl) := by
              obtain ⟨h', heq⟩ := List.mem_getLast?_eq_getLast hgl
              rw [heq]
              exact List.getLast_mem h'
            exact absurd rfl (hLsome none hmem)
        | some z => exact ⟨z, hgl⟩
      have hS : set_last vl ((some x₀ :: ds).map fun p => p.map (percentage · vl))
          = (some x₀ :: ds).map fun p => p.map (percentage · vl) :=
        set_last_eq_of_getLast_some vl hz
      have hpos : set_last vl (set_first
          ((some x₀ :: ds).map fun p => p.map (percentage · vl)))
          = some (percentage x₀ vl) :: (ds.map fun p => p.map (percentage · vl)) := by
        rw [hF, hS]
        rfl
      rw [process_eq_cons hpos]
      have hdsome : ∀ o ∈ ds.map fun p => p.map (percentage · vl), o ≠ none := by
        intro o ho
        exact hLsome o (List.mem_cons_of_mem _ ho)
      have hcl := clamp_pass_all_some hdsome (percentage x₀ vl)
      rw [fill_aux_all_some hcl]
      exact clamp_pass_chain hdsome (percentage x₀ vl)

end Weasy
namespace Weasy

theorem getLastD_of_ne_nil {l : List ℚ} (h : l ≠ []) (d d' : ℚ) :
    l.getLastD d = l.getLastD d' := by
  obtain ⟨x, hx⟩ : ∃ x, l.getLast? = some x := by
    cases hl : l.getLast? with
    | none => exact absurd (List.getLast?_eq_none_iff.1 hl) h
    | some x => exact ⟨x, rfl⟩
  rw [List.getLastD_eq_getLast?, List.getLastD_eq_getLast?, hx]
  rfl

theorem neg_scan_lengths (pc : RGBA) (pp : ℚ) {ps : List ℚ} {cs : List RGBA}
    (h : ps.length = cs.length) :
    (neg_scan pc pp ps cs).1.length = (neg_scan pc pp ps cs).2.length := by
  induction ps generalizing pc pp cs with
  | nil =>
      cases cs with
      | nil => rfl
      | cons c cs => simp at h
  | cons p ps ih =>
      cases cs with
      | nil => simp at h
      | cons c cs =>
          simp only [List.length_cons] at h
          simp only [neg_scan]
          split_ifs with h0 hpos
          · simpa using h
          · simpa using h
          · exact ih c p (by omega)

theorem neg_scan_getLast (pc : RGBA) (pp : ℚ) {ps : List ℚ} (cs : List RGBA)
    (h : 0 < ps.getLastD 0) :
    (neg_scan pc pp ps cs).1.getLast? = ps.getLast? := by
  induction ps generalizing pc pp cs with
  | nil => simp at h
  | cons p ps ih =>
      cases cs with
      | nil => rfl
      | cons c cs =>
          simp only [neg_scan]
          split_ifs with h0 hpos
          · rfl
          · exact getLast?_cons_ne _ (by simp)
          · have hpneg : p < 0 := (not_lt.1 hpos).lt_of_ne h0
            have hpsne : ps ≠ [] := by
              intro hc
              rw [hc] at h
              simp only [List.getLastD_cons, List.getLastD_nil] at h
              exact absurd h (not_lt.2 (le_of_lt hpneg))
            have hps : 0 < ps.getLastD 0 := by
              rw [List.getLastD_cons] at h
              rwa [getLastD_of_ne_nil hpsne p 0] at h
            rw [ih c p cs hps]
            exact (getLast?_cons_ne _ hpsne).symm

theorem neg_scan_head (pc : RGBA) (pp : ℚ) {ps : List ℚ} {cs : List RGBA}
    (h : 0 < ps.getLastD 0) (hl : ps.length = cs.length) :
    (neg_scan pc pp ps cs).1.head? = some 0 := by
  induction ps generalizing pc pp cs with
  | nil => simp at h
  | cons p ps ih =>
      cases cs with
      | nil => simp at hl
      | cons c cs =>
          simp only [neg_scan]
          split_ifs with h0 hpos
          · rw [h0]
            rfl
          · rfl
          · have hpneg : p < 0 := (not_lt.1 hpos).lt_of_ne h0
            have hpsne : ps ≠ [] := by
              intro hc
              rw [hc] at h
              simp only [List.getLastD_cons, List.getLastD_nil] at h
              exact absurd h (not_lt.2 (le_of_lt hpneg))
            have hps : 0 < ps.getLastD 0 := by
              rw [List.getLastD_cons] at h
              rwa [getLastD_of_ne_nil hpsne p 0] at h
            exact ih c p hps (by simpa using hl)

theorem neg_scan_chain (pc : RGBA) (pp : ℚ) {ps : List ℚ} (cs : List RGBA)
    (h : List.Chain' (· ≤ ·) ps) :
    List.Chain' (· ≤ ·) (neg_scan pc pp ps cs).1 := by
  induction ps generalizing pc pp cs with
  | nil =>
      cases cs with
      | nil => simp [neg_scan]
      | cons c cs => simp [neg_scan]
  | cons p ps ih =>
      cases cs with
      | nil => exact h
      | cons c cs =>
          simp only [neg_scan]
          split_ifs with h0 hpos
          · exact h
          · exact List.Chain'.cons (le_of_lt hpos) h
          · exact ih c p cs h.tail

end Weasy
namespace Weasy

theorem shift_offset_pos {p₀ span : ℚ} (hneg : p₀ < 0) (hspan : 0 < span) :
    0 < p₀ + span * (1 + ((⌊-p₀ / span⌋ : ℤ) : ℚ)) := by
  have h1 : -p₀ / span - 1 < ((⌊-p₀ / span⌋ : ℤ) : ℚ) := Int.sub_one_lt_floor _
  have hm : span * (-p₀ / span - 1) = -p₀ - span := by
    field_simp
  have h2 := mul_lt_mul_of_pos_left h1 hspan
  nlinarith [h2, hm]

theorem radial_negative_shift {ps : List ℚ} (cs g : List RGBA) {p₀ : ℚ}
    (h0 : ps.head? = some p₀) (hneg : p₀ < 0) (hspan : 0 < ps.getLastD 0 - p₀) :
    radial_negative true ps cs g =
      some (.cont (ps.map fun p =>
        p + (ps.getLastD 0 - p₀) * (1 + ((⌊-p₀ / (ps.getLastD 0 - p₀)⌋ : ℤ) : ℚ))) cs) ∧
    (ps.map fun p =>
        p + (ps.getLastD 0 - p₀) * (1 + ((⌊-p₀ / (ps.getLastD 0 - p₀)⌋ : ℤ) : ℚ))).head?
      = some (p₀ + (ps.getLastD 0 - p₀) *
        (1 + ((⌊-p₀ / (ps.getLastD 0 - p₀)⌋ : ℤ) : ℚ))) ∧
    0 < p₀ + (ps.getLastD 0 - p₀) *
        (1 + ((⌊-p₀ / (ps.getLastD 0 - p₀)⌋ : ℤ) : ℚ)) := by
  refine ⟨?_, ?_, shift_offset_pos hneg hspan⟩
  · unfold radial_negative
    rw [h0]
    dsimp only
    rw [if_pos hneg, if_pos rfl, if_neg (by intro hc; rw [hc] at hspan; exact absurd hspan (lt_irrefl 0))]
  · rw [List.head?_map, h0]
    rfl

theorem radial_negative_nonneg {ps : List ℚ} (rep : Bool) (cs g : List RGBA) {p₀ : ℚ}
    (h0 : ps.head? = some p₀) (hpos : 0 ≤ p₀) :
    radial_negative rep ps cs g = some (.cont ps cs) := by
  unfold radial_negative
  rw [h0]
  dsimp only
  rw [if_neg (not_lt.2 hpos)]

theorem radial_negative_cont_inv {rep : Bool} {ps0 : List ℚ} {cs0 g : List RGBA}
    {ps : List ℚ} {cs : List RGBA} (hcs : cs0 ≠ [])
    (h : radial_negative rep ps0 cs0 g = some (.cont ps cs)) :
    (ps = ps0 ∧ cs = cs0 ∧ (ps0 = [] ∨ ∃ p₀, ps0.head? = some p₀ ∧ 0 ≤ p₀)) ∨
    (rep = true ∧ ∃ p₀, ps0.head? = some p₀ ∧ p₀ < 0 ∧ ps0.getLastD 0 - p₀ ≠ 0 ∧
      ps = ps0.map (fun p => p + (ps0.getLastD 0 - p₀) *
        (1 + ((⌊-p₀ / (ps0.getLastD 0 - p₀)⌋ : ℤ) : ℚ))) ∧ cs = cs0) ∨
    (rep = false ∧ ∃ p₀ ps' c₀ cs', ps0 = p₀ :: ps' ∧ cs0 = c₀ :: cs' ∧ p₀ < 0 ∧
      0 < ps0.getLastD 0 ∧ (ps, cs) = neg_scan c₀ p₀ ps' cs') := by
  unfold radial_negative at h
  cases hh : ps0.head? with
  | none =>
      rw [hh] at h
      simp only [Option.some.injEq, NegResult.cont.injEq] at h
      exact Or.inl ⟨h.1.symm, h.2.symm, Or.inl (List.head?_eq_none_iff.1 hh)⟩
  | some p₀ =>
      rw [hh] at h
      dsimp only at h
      by_cases hneg : p₀ < 0
      · rw [if_pos hneg] at h
        cases rep with
        | false =>
            rw [if_neg Bool.false_ne_true] at h
            by_cases hlast : ps0.getLastD 0 ≤ 0
            · rw [if_pos hlast] at h
              simp at h
            · rw [if_neg hlast] at h
              obtain ⟨ps', hps'⟩ : ∃ ps', ps0 = p₀ :: ps' := by
                cases ps0 with
                | nil => simp at hh
                | cons a t =>
                    simp only [List.head?_cons, Option.some.injEq] at hh
                    exact ⟨t, by rw [hh]⟩
              obtain ⟨c₀, cs', hcs'⟩ : ∃ c₀ cs', cs0 = c₀ :: cs' := by
                cases cs0 with
                | nil => exact absurd rfl hcs
                | cons a t => exact ⟨a, t, rfl⟩
              subst hps'
              subst hcs'
              simp only [Option.some.injEq, NegResult.cont.injEq] at h
              refine Or.inr (Or.inr ⟨rfl, p₀, ps', c₀, cs', rfl, rfl, hneg,
                not_le.1 hlast, ?_⟩)
              exact Prod.ext h.1.symm h.2.symm
        | true =>
            rw [if_pos rfl] at h
            by_cases hspan : ps0.getLastD 0 - p₀ = 0
            · rw [if_pos hspan] at h
              simp at h
            · rw [if_neg hspan] at h
              simp only [Option.some.injEq, NegResult.cont.injEq] at h
              exact Or.inr (Or.inl ⟨rfl, p₀, rfl, hneg, hspan, h.1.symm, h.2.symm⟩)
      · rw [if_neg hneg] at h
        simp only [Option.some.injEq, NegResult.cont.injEq] at h
        exact Or.inl ⟨h.1.symm, h.2.symm, Or.inr ⟨p₀, rfl, not_lt.1 hneg⟩⟩

end Weasy
namespace Weasy

theorem head?_eq_headD {l : List ℚ} (h : l ≠ []) : l.head? = some (l.headD 0) := by
  cases l with
  | nil => exact absurd rfl h
  | cons a t => rfl

theorem getLast?_eq_getLastD {l : List ℚ} (h : l ≠ []) :
    l.getLast? = some (l.getLastD 0) := by
  rw [List.getLastD_eq_getLast?]
  cases hl : l.getLast? with
  | none => exact absurd (List.getLast?_eq_none_iff.1 hl) h
  | some x => rfl

theorem headD_append_left {l : List ℚ} (h : l ≠ []) (l2 : List ℚ) :
    (l ++ l2).headD 0 = l.headD 0 := by
  cases l with
  | nil => exact absurd rfl h
  | cons a t => rfl

theorem normalize_parts (ps : List ℚ) :
    (normalize_stop_positions ps).1 = ps.headD 0 ∧
    (normalize_stop_positions ps).2.1 = ps.getLastD 0 := by
  simp only [normalize_stop_positions]
  split <;> exact ⟨rfl, rfl⟩

theorem normalize_map_of_ne {ps : List ℚ} (h : ps.headD 0 ≠ ps.getLastD 0) :
    (normalize_stop_positions ps).2.2
      = ps.map (fun p => (p - ps.headD 0) / (ps.getLastD 0 - ps.headD 0)) := by
  simp only [normalize_stop_positions]
  rw [if_neg (sub_ne_zero_of_ne (Ne.symm h))]

theorem normalize_head_last {ps : List ℚ} (hne : ps ≠ [])
    (h : ps.headD 0 ≠ ps.getLastD 0) :
    (normalize_stop_positions ps).2.2.head? = some 0 ∧
    (normalize_stop_positions ps).2.2.getLast? = some 1 := by
  rw [normalize_map_of_ne h]
  constructor
  · rw [List.head?_map, head?_eq_headD hne]
    simp
  · rw [List.getLast?_map, getLast?_eq_getLastD hne]
    simp only [Option.map_some']
    rw [div_self (sub_ne_zero_of_ne (Ne.symm h))]

theorem normalize_chain_bounds {ps : List ℚ} (hch : List.Chain' (· ≤ ·) ps)
    (hlt : ps.headD 0 < ps.getLastD 0) :
    List.Chain' (· ≤ ·) (normalize_stop_positions ps).2.2 ∧
    ∀ p ∈ (normalize_stop_positions ps).2.2, 0 ≤ p ∧ p ≤ 1 := by
  have ht : (0 : ℚ) < ps.getLastD 0 - ps.headD 0 := by linarith
  rw [normalize_map_of_ne (ne_of_lt hlt)]
  constructor
  · rw [List.chain'_map]
    refine hch.imp ?_
    intro a b hab
    exact div_le_div_of_nonneg_right (by linarith) ht.le
  · intro p hp
    obtain ⟨q, hq, rfl⟩ := List.mem_map.1 hp
    constructor
    · exact div_nonneg (by linarith [chain'_head_le hch q hq]) (le_of_lt ht)
    · rw [div_le_one ht]
      linarith [chain'_le_getLast hch q hq]

theorem all_equal_dropLast_last {ps : List ℚ} (hch : List.Chain' (· ≤ ·) ps)
    (h2 : 2 ≤ ps.length) (heq : ps.headD 0 = ps.getLastD 0) :
    ps.dropLast.getLastD 0 = ps.getLastD 0 := by
  have hdne : ps.dropLast ≠ [] := by
    intro hc
    have := ps.length_dropLast
    rw [hc] at this
    simp at this
    omega
  have hmem : ps.dropLast.getLastD 0 ∈ ps := by
    have : ps.dropLast.getLastD 0 ∈ ps.dropLast := by
      rw [List.getLastD_eq_getLast?, getLast?_eq_getLastD hdne]
      obtain ⟨h', hx⟩ := List.mem_getLast?_eq_getLast (getLast?_eq_getLastD hdne)
      rw [List.getLastD_eq_getLast?, getLast?_eq_getLastD hdne]
      simp only [Option.getD_some]
      rw [hx]
      exact List.getLast_mem h'
    exact (List.dropLast_sublist _).subset this
  have h1 := chain'_head_le hch _ hmem
  have h2' := chain'_le_getLast hch _ hmem
  linarith [heq ▸ h1]

end Weasy
namespace Weasy

theorem pad_back_facts {ps : List ℚ} (cs : List RGBA)
    (hch : List.Chain' (· ≤ ·) ps) (hne : ps ≠ []) :
    List.Chain' (· ≤ ·) (pad_back ps cs).1 ∧
    (pad_back ps cs).1.headD 0 = ps.headD 0 ∧
    ps.getLastD 0 ≤ (pad_back ps cs).1.getLastD 0 ∧
    ps.length ≤ (pad_back ps cs).1.length ∧ (pad_back ps cs).1 ≠ [] := by
  unfold pad_back
  split
  · next pl pl2 hL hL2 =>
      split
      · next heq =>
          dsimp only
          have hplv : ps.getLastD 0 = pl := by
            rw [List.getLastD_eq_getLast?, hL]
            rfl
          have hlast2 : (ps ++ [pl + 1]).getLastD 0 = pl + 1 := by
            rw [List.getLastD_eq_getLast?, List.getLast?_concat]
            rfl
          refine ⟨?_, headD_append_left hne _, ?_, by simp, by simp⟩
          · rw [List.chain'_append]
            refine ⟨hch, List.chain'_singleton _, ?_⟩
            intro x hx y hy
            rw [hL] at hx
            have hx' : pl = x := by simpa using hx
            have hy' : pl + 1 = y := by simpa using hy
            rw [← hx', ← hy']
            linarith
          · rw [hlast2, hplv]
            linarith
      · dsimp only
        exact ⟨hch, rfl, le_refl _, le_refl _, hne⟩
  · dsimp only
    exact ⟨hch, rfl, le_refl _, le_refl _, hne⟩

theorem pad_back_fire {ps : List ℚ} (cs : List RGBA) (h2 : 2 ≤ ps.length)
    (heq : ps.dropLast.getLastD 0 = ps.getLastD 0) :
    (pad_back ps cs).1.getLastD 0 = ps.getLastD 0 + 1 := by
  have hne : ps ≠ [] := by
    intro hc
    rw [hc] at h2
    simp at h2
  have hdne : ps.dropLast ≠ [] := by
    intro hc
    have := ps.length_dropLast
    rw [hc] at this
    simp at this
    omega
  unfold pad_back
  rw [getLast?_eq_getLastD hne, getLast?_eq_getLastD hdne]
  dsimp only
  rw [if_pos heq]
  dsimp only
  rw [List.getLastD_eq_getLast?, List.getLast?_concat]
  rfl

theorem pad_front_span {ps : List ℚ} (cs : List RGBA)
    (hch : List.Chain' (· ≤ ·) ps) (h2 : 2 ≤ ps.length) :
    List.Chain' (· ≤ ·) (pad_front ps cs).1 ∧
    (pad_front ps cs).1.getLastD 0 = ps.getLastD 0 ∧
    (pad_front ps cs).1.headD 0 < ps.getLastD 0 ∧
    2 ≤ (pad_front ps cs).1.length := by
  match ps, h2, hch with
  | p₀ :: p₁ :: rest, _, hch =>
      have hp01 : p₀ ≤ p₁ := (List.chain'_cons.1 hch).1
      have hlast : p₁ ≤ (p₀ :: p₁ :: rest).getLastD 0 :=
        chain'_le_getLast hch p₁ (by simp)
      simp only [pad_front]
      split_ifs with hp
      · dsimp only
        refine ⟨List.Chain'.cons (by linarith) hch, ?_, ?_, by simp⟩
        · show ((p₀ - 1) :: p₀ :: p₁ :: rest).getLastD 0 = (p₀ :: p₁ :: rest).getLastD 0
          rw [List.getLastD_cons]
          exact getLastD_of_ne_nil (by simp) _ _
        · show p₀ - 1 < (p₀ :: p₁ :: rest).getLastD 0
          linarith
      · dsimp only
        refine ⟨hch, rfl, ?_, by simp⟩
        exact lt_of_lt_of_le (lt_of_le_of_ne hp01 hp) hlast

theorem radial_pad_front_span {ps : List ℚ} (cs : List RGBA)
    (hch : List.Chain' (· ≤ ·) ps) (h2 : 2 ≤ ps.length) :
    List.Chain' (· ≤ ·) (radial_pad_front ps cs).1 ∧
    (radial_pad_front ps cs).1.getLastD 0 = ps.getLastD 0 ∧
    2 ≤ (radial_pad_front ps cs).1.length ∧
    ((radial_pad_front ps cs).1.headD 0 < ps.getLastD 0 ∨
      (ps.headD 0 = ps.getLastD 0 ∧ (radial_pad_front ps cs).1 = ps)) := by
  match ps, h2, hch with
  | p₀ :: p₁ :: rest, _, hch =>
      have hp01 : p₀ ≤ p₁ := (List.chain'_cons.1 hch).1
      have hlast : p₁ ≤ (p₀ :: p₁ :: rest).getLastD 0 :=
        chain'_le_getLast hch p₁ (by simp)
      simp only [radial_pad_front]
      split_ifs with hp
      · dsimp only
        refine ⟨List.Chain'.cons (le_of_lt hp.1) hch, ?_, by simp, Or.inl ?_⟩
        · show (0 :: p₀ :: p₁ :: rest).getLastD 0 = (p₀ :: p₁ :: rest).getLastD 0
          rw [List.getLastD_cons]
        · show (0 : ℚ) < (p₀ :: p₁ :: rest).getLastD 0
          calc (0 : ℚ) < p₀ := hp.1
            _ ≤ p₁ := hp01
            _ ≤ _ := hlast
      · dsimp only
        by_cases hpe : p₀ = p₁
        · by_cases hfl : p₀ = (p₀ :: p₁ :: rest).getLastD 0
          · exact ⟨hch, rfl, by simp, Or.inr ⟨hfl, rfl⟩⟩
          · refine ⟨hch, rfl, by simp, Or.inl ?_⟩
            show p₀ < (p₀ :: p₁ :: rest).getLastD 0
            exact lt_of_le_of_ne (le_trans hp01 hlast) hfl
        · refine ⟨hch, rfl, by simp, Or.inl ?_⟩
          show p₀ < (p₀ :: p₁ :: rest).getLastD 0
          exact lt_of_lt_of_le (lt_of_le_of_ne hp01 hpe) hlast

end Weasy
namespace Weasy

theorem iterCat_length {α : Type} (f : ℕ → List α) (m : ℕ)
    (hf : ∀ k, (f k).length = m) : ∀ i n, (iterCat i n f).length = n * m := by
  intro i n
  induction n generalizing i with
  | zero => simp [iterCat]
  | succ n ih =>
      show (f i ++ iterCat (i + 1) n f).length = (n + 1) * m
      rw [List.length_append, hf, ih]
      ring

theorem sliceNeg_length_eq {α β : Type} {l1 : List α} {l2 : List β} (k : ℕ)
    (h : l1.length = l2.length) : (sliceNeg l1 k).length = (sliceNeg l2 k).length := by
  unfold sliceNeg
  split_ifs
  · exact h
  · simp [h]

theorem repeat_scan_props {fr : ℤ} {op : List ℚ} {oc : List RGBA} {ratio : ℚ}
    (hoc : op.length = oc.length) :
    ∀ (l : List ℚ) (i : ℕ) (acc1 : List ℚ) (acc2 : List RGBA),
      acc1.length = acc2.length → (∃ x ∈ l, x ≤ ratio) →
      ∃ ps cs, repeat_scan fr op oc ratio i l acc1 acc2 = some (ps, cs) ∧
        ps.length = cs.length ∧ acc1.length ≤ ps.length := by
  intro l
  induction l with
  | nil =>
      intro i a1 a2 _ hex
      simp at hex
  | cons p rest ih =>
      intro i a1 a2 hacc hex
      by_cases h1 : p = ratio
      · have hres : repeat_scan fr op oc ratio i (p :: rest) a1 a2
            = some ((sliceNeg op i).map (fun q => q - (fr : ℚ) - 1) ++ a1,
                sliceNeg oc i ++ a2) := by
          simp only [repeat_scan]
          rw [if_pos h1]
        refine ⟨_, _, hres, ?_, by simp⟩
        simp only [List.length_append, List.length_map]
        rw [@sliceNeg_length_eq _ _ _ oc i hoc, hacc]
      · by_cases h2 : p < ratio
        · have hres : repeat_scan fr op oc ratio i (p :: rest) a1 a2
              = some ((ratio - 1 - (fr : ℚ)) ::
                  ((sliceNeg op (i - 1)).map fun q => q - 1 - (fr : ℚ)) ++ a1,
                gradient_average_color
                  [negIdx dRGBA oc i, negIdx dRGBA oc i,
                    negIdx dRGBA oc (i - 1), negIdx dRGBA oc (i - 1)]
                  [p, ratio, ratio, negIdx 0 op (i - 1)]
                  :: sliceNeg oc (i - 1) ++ a2) := by
            simp only [repeat_scan]
            rw [if_neg h1, if_pos h2]
          refine ⟨_, _, hres, ?_, ?_⟩
          · simp only [List.length_append, List.length_map, List.length_cons]
            rw [@sliceNeg_length_eq _ _ _ oc (i - 1) hoc, hacc]
          · simp only [List.length_append, List.length_map, List.length_cons]
            omega
        · obtain ⟨x, hx, hxr⟩ := hex
          have hx' : x ∈ rest := by
            rcases List.mem_cons.1 hx with rfl | hx'
            · exact absurd (lt_of_le_of_ne hxr h1) h2
            · exact hx'
          obtain ⟨ps, cs, hres, hlen2, hle⟩ := ih (i + 1) a1 a2 hacc ⟨x, hx', hxr⟩
          refine ⟨ps, cs, ?_, hlen2, hle⟩
          show repeat_scan fr op oc ratio i (p :: rest) a1 a2 = _
          simp only [repeat_scan]
          rw [if_neg h1, if_neg h2]
          exact hres

end Weasy
namespace Weasy

theorem radial_repeat_inward_spec {gl : ℚ} {pos0 : List ℚ} {cols0 : List RGBA}
    {points : RadialPoints} {positions : List ℚ} {colors : List RGBA}
    (hgl : 0 < gl) (hr : 0 ≤ points.r0)
    (h0 : pos0.head? = some 0) (h1 : pos0.getLast? = some 1)
    (hol : pos0.length = cols0.length) (hl : positions.length = colors.length)
    (hge : pos0.length ≤ positions.length) :
    ∃ ps cs, radial_repeat_inward gl pos0 cols0 points positions colors
        = some ({points with r0 := 0}, ps, cs) ∧
      ps.length = cs.length ∧ positions.length ≤ ps.length := by
  by_cases hz : points.r0 = 0
  · refine ⟨positions, colors, ?_, hl, le_refl _⟩
    unfold radial_repeat_inward
    rw [if_pos hz]
    have : ({points with r0 := 0} : RadialPoints) = points := by
      cases points
      simp_all
    rw [this]
  · have hrpos : 0 < points.r0 := lt_of_le_of_ne hr (Ne.symm hz)
    have hrb : 0 < points.r0 / gl := div_pos hrpos hgl
    have htr : rat_trunc (points.r0 / gl) = ⌊points.r0 / gl⌋ := if_pos (le_of_lt hrb)
    have hfr0 : (0 : ℤ) ≤ ⌊points.r0 / gl⌋ := Int.floor_nonneg.2 (le_of_lt hrb)
    have hfrac0 : (0 : ℚ) ≤ points.r0 / gl - (⌊points.r0 / gl⌋ : ℤ) :=
      sub_nonneg.2 (Int.floor_le _)
    have hfrac1 : points.r0 / gl - ((⌊points.r0 / gl⌋ : ℤ) : ℚ) < 1 := by
      have := Int.lt_floor_add_one (points.r0 / gl)
      linarith
    -- the intermediate lists after the whole-repeat prepend
    obtain ⟨m1, m2, hm, hmlen, hmge⟩ :
        ∃ m1 m2, (if rat_trunc (points.r0 / gl) ≠ 0 then
            ((iterCat 0 (rat_trunc (points.r0 / gl)).toNat fun i =>
                pos0.map fun p => (i : ℚ) - ((rat_trunc (points.r0 / gl) : ℤ) : ℚ) + p)
              ++ positions,
              colors ++ iterCat 0 (rat_trunc (points.r0 / gl)).toNat fun _ => cols0)
          else (positions, colors)) = (m1, m2) ∧
          m1.length = m2.length ∧ positions.length ≤ m1.length := by
      split_ifs with hne
      · refine ⟨_, _, rfl, ?_, by simp⟩
        simp only [List.length_append]
        rw [iterCat_length _ pos0.length (fun k => by simp),
          iterCat_length _ cols0.length (fun k => rfl), hol, hl]
        ring
      · exact ⟨positions, colors, rfl, hl, le_refl _⟩
    by_cases hfz : points.r0 / gl - ((rat_trunc (points.r0 / gl) : ℤ) : ℚ) = 0
    · refine ⟨m1, m2, ?_, hmlen, hmge⟩
      unfold radial_repeat_inward
      rw [if_neg hz]
      dsimp only
      rw [hm]
      dsimp only
      rw [if_pos hfz]
    · have hfzpos : 0 < points.r0 / gl - ((rat_trunc (points.r0 / gl) : ℤ) : ℚ) := by
        rw [htr] at hfz ⊢
        exact lt_of_le_of_ne hfrac0 (Ne.symm hfz)
      have hfzlt : points.r0 / gl - ((rat_trunc (points.r0 / gl) : ℤ) : ℚ) < 1 := by
        rw [htr]
        exact hfrac1
      have hratio : (0 : ℚ) ≤ 1 - (points.r0 / gl - ((rat_trunc (points.r0 / gl) : ℤ) : ℚ)) := by
        linarith
      have hzero_mem : (0 : ℚ) ∈ pos0.reverse := by
        rw [List.mem_reverse]
        exact List.mem_of_mem_head? (by rw [h0]; rfl)
      obtain ⟨ps, cs, hscan, hslen, hsge⟩ :=
        @repeat_scan_props (rat_trunc (points.r0 / gl)) _ _
          (1 - (points.r0 / gl - ((rat_trunc (points.r0 / gl) : ℤ) : ℚ)))
          hol pos0.reverse 1 m1 m2 hmlen ⟨0, hzero_mem, hratio⟩
      refine ⟨ps, cs, ?_, hslen, le_trans hmge hsge⟩
      unfold radial_repeat_inward
      rw [if_neg hz]
      dsimp only
      rw [hm]
      dsimp only
      rw [if_neg hfz, if_pos ⟨h0, h1⟩, if_pos ⟨hfzpos, hfzlt⟩, hscan]

end Weasy
namespace Weasy

theorem radial_repeat_spec {maxd : ℚ} {pts : RadialPoints} {pos : List ℚ}
    {cols : List RGBA}
    (h0 : pos.head? = some 0) (h1 : pos.getLast? = some 1)
    (hr : 0 ≤ pts.r0) (hlt : pts.r0 < pts.r1) (hlen : pos.length = cols.length) :
    ∃ pts2 ps cs, radial_repeat maxd pts pos cols = some (pts2, ps, cs) ∧
      pts2.r0 = 0 ∧ maxd ≤ pts2.r1 ∧
      (0 < ⌈(maxd - pts.r1) / (pts.r1 - pts.r0)⌉ →
        pts2.r1 = pts.r1 + (pts.r1 - pts.r0)
          * ((⌈(maxd - pts.r1) / (pts.r1 - pts.r0)⌉ : ℤ) : ℚ)) ∧
      (¬ 0 < ⌈(maxd - pts.r1) / (pts.r1 - pts.r0)⌉ → pts2.r1 = pts.r1) ∧
      ps.length = cs.length ∧ pos.length ≤ ps.length := by
  have hgl : 0 < pts.r1 - pts.r0 := by linarith
  by_cases hra : 0 < ⌈(maxd - pts.r1) / (pts.r1 - pts.r0)⌉
  · have hreq : radial_repeat maxd pts pos cols =
        radial_repeat_inward (pts.r1 - pts.r0) pos cols
          { pts with r1 := pts.r1 + (pts.r1 - pts.r0)
            * ((⌈(maxd - pts.r1) / (pts.r1 - pts.r0)⌉ : ℤ) : ℚ) }
          (iterCat 0 (1 + ⌈(maxd - pts.r1) / (pts.r1 - pts.r0)⌉).toNat
            fun i => pos.map fun p => (i : ℚ) + p)
          (iterCat 0 (1 + ⌈(maxd - pts.r1) / (pts.r1 - pts.r0)⌉).toNat
            fun _ => cols) := by
      simp only [radial_repeat]
      rw [if_pos hra]
    have hil : (iterCat 0 (1 + ⌈(maxd - pts.r1) / (pts.r1 - pts.r0)⌉).toNat
        fun i => pos.map fun p => (i : ℚ) + p).length
        = (1 + ⌈(maxd - pts.r1) / (pts.r1 - pts.r0)⌉).toNat * pos.length := by
      rw [iterCat_length _ pos.length (fun k => by simp)]
    have hic : (iterCat 0 (1 + ⌈(maxd - pts.r1) / (pts.r1 - pts.r0)⌉).toNat
        fun _ => cols).length
        = (1 + ⌈(maxd - pts.r1) / (pts.r1 - pts.r0)⌉).toNat * cols.length := by
      rw [iterCat_length _ cols.length (fun k => rfl)]
    have htn : 1 ≤ (1 + ⌈(maxd - pts.r1) / (pts.r1 - pts.r0)⌉).toNat := by
      omega
    obtain ⟨ps, cs, hres, hlens, hge2⟩ :=
      @radial_repeat_inward_spec (pts.r1 - pts.r0) _ _ _ _ _ hgl
        (by simpa using hr : (0 : ℚ) ≤ ({ pts with r1 := pts.r1 + (pts.r1 - pts.r0)
          * ((⌈(maxd - pts.r1) / (pts.r1 - pts.r0)⌉ : ℤ) : ℚ) } : RadialPoints).r0)
        h0 h1 hlen (by rw [hil, hic, hlen]) (by rw [hil]; exact Nat.le_mul_of_pos_left _ htn)
    refine ⟨_, ps, cs, hreq.trans hres, rfl, ?_, fun _ => rfl, fun hc => absurd hra hc, hlens,
      le_trans (by rw [hil]; exact Nat.le_mul_of_pos_left _ htn) hge2⟩
    have hceil := Int.le_ceil ((maxd - pts.r1) / (pts.r1 - pts.r0))
    have : maxd - pts.r1 ≤ (pts.r1 - pts.r0)
        * ((⌈(maxd - pts.r1) / (pts.r1 - pts.r0)⌉ : ℤ) : ℚ) := by
      rw [← div_le_iff₀' hgl]
      exact hceil
    show maxd ≤ pts.r1 + (pts.r1 - pts.r0) * ((⌈(maxd - pts.r1) / (pts.r1 - pts.r0)⌉ : ℤ) : ℚ)
    linarith
  · have hreq : radial_repeat maxd pts pos cols =
        radial_repeat_inward (pts.r1 - pts.r0) pos cols pts pos cols := by
      simp only [radial_repeat]
      rw [if_neg hra]
    obtain ⟨ps, cs, hres, hlens, hge2⟩ :=
      @radial_repeat_inward_spec (pts.r1 - pts.r0) _ _ _ _ _ hgl hr h0 h1 hlen hlen (le_refl _)
    refine ⟨_, ps, cs, hreq.trans hres, rfl, ?_, fun hc => absurd hc hra, fun _ => rfl,
      hlens, hge2⟩
    have hceil := Int.le_ceil ((maxd - pts.r1) / (pts.r1 - pts.r0))
    have hle0 : (maxd - pts.r1) / (pts.r1 - pts.r0) ≤ 0 := by
      have : ((⌈(maxd - pts.r1) / (pts.r1 - pts.r0)⌉ : ℤ) : ℚ) ≤ 0 := by
        exact_mod_cast not_lt.1 hra
      linarith
    have : maxd - pts.r1 ≤ 0 := by
      by_contra hcon
      push_neg at hcon
      exact absurd (div_pos hcon hgl) (not_lt.2 hle0)
    show maxd ≤ pts.r1
    linarith

end Weasy
namespace Weasy

theorem headD_map_of_ne {l : List ℚ} (f : ℚ → ℚ) (h : l ≠ []) :
    (l.map f).headD 0 = f (l.headD 0) := by
  cases l with
  | nil => exact absurd rfl h
  | cons a t => rfl

theorem getLastD_map_of_ne {l : List ℚ} (f : ℚ → ℚ) (h : l ≠ []) :
    (l.map f).getLastD 0 = f (l.getLastD 0) := by
  rw [List.getLastD_eq_getLast?, List.getLast?_map, getLast?_eq_getLastD h]
  rfl

theorem pad_front_lengths {ps : List ℚ} {cs : List RGBA} (h : ps.length = cs.length) :
    (pad_front ps cs).1.length = (pad_front ps cs).2.length ∧
    ps.length ≤ (pad_front ps cs).1.length := by
  match ps, h with
  | [], h => exact ⟨h, le_refl _⟩
  | [p], h => exact ⟨h, le_refl _⟩
  | p₀ :: p₁ :: t, h =>
      simp only [pad_front]
      split_ifs
      · refine ⟨?_, by simp⟩
        simp only [List.length_cons] at h ⊢
        omega
      · exact ⟨h, le_refl _⟩

theorem radial_pad_front_lengths {ps : List ℚ} {cs : List RGBA}
    (h : ps.length = cs.length) :
    (radial_pad_front ps cs).1.length = (radial_pad_front ps cs).2.length ∧
    ps.length ≤ (radial_pad_front ps cs).1.length := by
  match ps, h with
  | [], h => exact ⟨h, le_refl _⟩
  | [p], h => exact ⟨h, le_refl _⟩
  | p₀ :: p₁ :: t, h =>
      simp only [radial_pad_front]
      split_ifs
      · refine ⟨?_, by simp⟩
        simp only [List.length_cons] at h ⊢
        omega
      · exact ⟨h, le_refl _⟩

theorem pad_back_lengths {ps : List ℚ} {cs : List RGBA} (h : ps.length = cs.length) :
    (pad_back ps cs).1.length = (pad_back ps cs).2.length ∧
    ps.length ≤ (pad_back ps cs).1.length := by
  unfold pad_back
  split
  · split_ifs
    · simp only [List.length_append, List.length_singleton]
      omega
    · exact ⟨h, le_refl _⟩
  · exact ⟨h, le_refl _⟩

theorem repeating_cont_facts {sx' : ℚ} {stops : List (Option Dimension)}
    {colors0 : List RGBA} {ps : List ℚ} {cs : List RGBA} (hc0 : colors0 ≠ [])
    (hcont : radial_negative true (process_color_stops sx' stops) colors0 colors0
      = some (.cont ps cs)) :
    cs = colors0 ∧ ps.length = stops.length ∧
    (ps = [] ∨ (0 ≤ ps.headD 0 ∧ ps.headD 0 ≤ ps.getLastD 0)) := by
  rcases radial_negative_cont_inv hc0 hcont with
    ⟨hps, hcs, hh⟩ | ⟨_, p₀, hh, hneg, hspan, hps, hcs⟩ | ⟨hfalse, _⟩
  · subst hps
    subst hcs
    refine ⟨rfl, process_color_stops_length _ _, ?_⟩
    rcases hh with hnil | ⟨p₀, hh, hp₀⟩
    · exact Or.inl hnil
    · have hne : process_color_stops sx' stops ≠ [] := by
        intro hc
        rw [hc] at hh
        simp at hh
      have hstne : stops ≠ [] := by
        intro hc
        exact hne (by rw [hc]; rfl)
      refine Or.inr ⟨?_, process_head_le_getLast hstne⟩
      have : (process_color_stops sx' stops).headD 0 = p₀ := by
        rw [List.headD_eq_head?, hh]
        rfl
      rw [this]
      exact hp₀
  · subst hps
    subst hcs
    have hne : process_color_stops sx' stops ≠ [] := by
      intro hc
      rw [hc] at hh
      simp at hh
    have hstne : stops ≠ [] := by
      intro hc
      exact hne (by rw [hc]; rfl)
    have hhD : (process_color_stops sx' stops).headD 0 = p₀ := by
      rw [List.headD_eq_head?, hh]
      rfl
    have hspan' : 0 < (process_color_stops sx' stops).getLastD 0 - p₀ := by
      rcases lt_or_gt_of_ne hspan with hlt | hgt
      · exfalso
        have := @process_head_le_getLast sx' _ hstne
        rw [hhD] at this
        linarith
      · exact hgt
    constructor
    · rfl
    constructor
    · rw [List.length_map, process_color_stops_length]
    · refine Or.inr ⟨?_, ?_⟩
      · rw [headD_map_of_ne _ hne, hhD]
        exact le_of_lt (shift_offset_pos hneg hspan')
      · rw [headD_map_of_ne _ hne, getLastD_map_of_ne _ hne, hhD]
        have := @process_head_le_getLast sx' _ hstne
        rw [hhD] at this
        linarith
  · exact absurd hfalse (by simp)

end Weasy
namespace Weasy

theorem normalize_length (ps : List ℚ) :
    (normalize_stop_positions ps).2.2.length = ps.length := by
  simp only [normalize_stop_positions]
  split <;> simp

theorem cont_branch_facts {rep : Bool} {ps0 : List ℚ} {cs0 : List RGBA}
    {g : List RGBA} {ps : List ℚ} {cs : List RGBA}
    (hlen : ps0.length = cs0.length) (h2 : 2 ≤ ps0.length)
    (hcont : radial_negative rep ps0 cs0 g = some (.cont ps cs)) :
    ps.length = cs.length ∧ 2 ≤ ps.length := by
  have hcs0 : cs0 ≠ [] := by
    intro hc
    rw [hc] at hlen
    simp only [List.length_nil] at hlen
    omega
  rcases radial_negative_cont_inv hcs0 hcont with
    ⟨hps, hcs, _⟩ | ⟨_, p₀, hh, _, _, hps, hcs⟩ | ⟨_, p₀, ps', c₀, cs', hps0, hcs0', hneg, hlast, hsc⟩
  · subst hps
    subst hcs
    exact ⟨hlen, h2⟩
  · subst hps
    subst hcs
    rw [List.length_map]
    exact ⟨hlen, h2⟩
  · subst hps0
    subst hcs0'
    have hlen' : ps'.length = cs'.length := by
      simp only [List.length_cons] at hlen
      omega
    have hps'ne : ps' ≠ [] := by
      intro hc
      subst hc
      simp only [List.getLastD_cons, List.getLastD_nil] at hlast
      linarith
    have hlast' : 0 < ps'.getLastD 0 := by
      rw [List.getLastD_cons, getLastD_of_ne_nil hps'ne p₀ 0] at hlast
      exact hlast
    have hhead := neg_scan_head c₀ p₀ hlast' hlen'
    have hglast := neg_scan_getLast c₀ p₀ cs' hlast'
    have hlens := neg_scan_lengths c₀ p₀ hlen'
    obtain ⟨hps, hcs⟩ : ps = (neg_scan c₀ p₀ ps' cs').1 ∧ cs = (neg_scan c₀ p₀ ps' cs').2 := by
      rw [Prod.ext_iff] at hsc
      exact hsc
    subst hps
    subst hcs
    refine ⟨hlens, ?_⟩
    have hgl2 : (neg_scan c₀ p₀ ps' cs').1.getLast? = some (ps'.getLastD 0) := by
      rw [hglast, getLast?_eq_getLastD hps'ne]
    exact length_ge_two_of_head_ne_last hhead hgl2 (by linarith)

end Weasy
namespace Weasy

theorem radial_layout_nonsolid_lengths {repeating : Bool} {colors0 : List RGBA}
    {stops : List (Option Dimension)} {w h : ℚ} {oxr oyb : Bool} {cx cy : Dimension}
    {sx sy maxd : ℚ} {plan : Plan}
    (hc0 : colors0 ≠ []) (hlen : colors0.length = stops.length)
    (hp : radial_layout repeating colors0 stops w h oxr cx oyb cy sx sy maxd = some plan)
    (hns : plan.type_ ≠ .solid) :
    plan.positions.length = plan.colors.length ∧ 2 ≤ plan.positions.length := by
  have hplen : (process_color_stops (handle_degenerate sx sy).1 stops).length
      = colors0.length := by
    rw [process_color_stops_length, hlen]
  cases repeating with
  | false =>
      simp only [radial_layout, Bool.false_eq_true, and_false, if_false] at hp
      split at hp
      · obtain rfl := Option.some.inj hp
        exact absurd rfl hns
      · next hl1 =>
          have h2 : 2 ≤ colors0.length := by
            have := List.length_pos.2 hc0
            omega
          split at hp
          · exact absurd hp (by simp)
          · obtain rfl := Option.some.inj hp
            exact absurd rfl hns
          · next ps cs hcont =>
              have hpadf := @radial_pad_front_lengths _ colors0 (by rw [hplen])
              have hpadb := pad_back_lengths hpadf.1
              have hfacts := cont_branch_facts hpadb.1
                (by omega) hcont
              obtain rfl := Option.some.inj hp
              refine ⟨?_, ?_⟩
              · show (normalize_stop_positions ps).2.2.length = cs.length
                rw [normalize_length]
                exact hfacts.1
              · show 2 ≤ (normalize_stop_positions ps).2.2.length
                rw [normalize_length]
                exact hfacts.2
  | true =>
      simp only [radial_layout, and_true, eq_self_iff_true, if_true] at hp
      split at hp
      · obtain rfl := Option.some.inj hp
        exact absurd rfl hns
      · next hl1 =>
          have h2 : 2 ≤ colors0.length := by
            have := List.length_pos.2 hc0
            omega
          split at hp
          · exact absurd hp (by simp)
          · obtain rfl := Option.some.inj hp
            exact absurd rfl hns
          · next ps cs hcont =>
              have hfacts := cont_branch_facts (by rw [hplen]) (by omega) hcont
              have hrc := repeating_cont_facts hc0 hcont
              have hpsne : ps ≠ [] := by
                intro hc
                rw [hc] at hfacts
                simp at hfacts
              have hbounds : 0 ≤ ps.headD 0 ∧ ps.headD 0 ≤ ps.getLastD 0 := by
                rcases hrc.2.2 with hnil | hb
                · exact absurd hnil hpsne
                · exact hb
              split at hp
              · obtain rfl := Option.some.inj hp
                exact absurd rfl hns
              · next hne1 =>
                  have hfl : ps.headD 0 ≠ ps.getLastD 0 := by
                    intro hc
                    exact hne1 (by rw [(normalize_parts ps).1, (normalize_parts ps).2, hc])
                  have hhl := normalize_head_last hpsne hfl
                  have hnlen : (normalize_stop_positions ps).2.2.length = cs.length := by
                    rw [normalize_length]
                    exact hfacts.1
                  obtain ⟨pts2, ps2, cs2, hspec, _, _, _, _, hlen2, hge2⟩ :=
                    @radial_repeat_spec maxd
                      (⟨if oxr then w - percentage cx w else percentage cx w,
                        (if oyb then h - percentage cy h else percentage cy h) /
                          ((handle_degenerate sx sy).2 / (handle_degenerate sx sy).1),
                        (normalize_stop_positions ps).1,
                        if oxr then w - percentage cx w else percentage cx w,
                        (if oyb then h - percentage cy h else percentage cy h) /
                          ((handle_degenerate sx sy).2 / (handle_degenerate sx sy).1),
                        (normalize_stop_positions ps).2.1⟩ : RadialPoints) _ _
                      hhl.1 hhl.2
                      (by show (0:ℚ) ≤ (normalize_stop_positions ps).1
                          rw [(normalize_parts ps).1]
                          exact hbounds.1)
                      (by show (normalize_stop_positions ps).1 < (normalize_stop_positions ps).2.1
                          rw [(normalize_parts ps).1, (normalize_parts ps).2]
                          exact lt_of_le_of_ne hbounds.2 hfl)
                      hnlen
                  split at hp
                  · exact absurd hp (by simp)
                  · next r hrep =>
                      obtain rfl := Option.some.inj hp
                      have hr : r = (pts2, ps2, cs2) := Option.some.inj (hrep.symm.trans hspec)
                      subst hr
                      refine ⟨hlen2, ?_⟩
                      show 2 ≤ ps2.length
                      have : 2 ≤ (normalize_stop_positions ps).2.2.length := by
                        rw [normalize_length]
                        exact hfacts.2
                      omega

end Weasy
namespace Weasy

theorem headD_mem {l : List ℚ} (h : l ≠ []) : l.headD 0 ∈ l := by
  cases l with
  | nil => exact absurd rfl h
  | cons a t => simp

theorem linear_layout_lengths {repeating : Bool} {colors0 : List RGBA}
    {stops : List (Option Dimension)} {w h dx dy : ℚ}
    (hc0 : colors0 ≠ []) (hlen : colors0.length = stops.length)
    (hns : (linear_layout repeating colors0 stops w h dx dy).type_ ≠ .solid) :
    (linear_layout repeating colors0 stops w h dx dy).positions.length
      = (linear_layout repeating colors0 stops w h dx dy).colors.length ∧
    2 ≤ (linear_layout repeating colors0 stops w h dx dy).positions.length ∧
    (linear_layout repeating colors0 stops w h dx dy).scale_y = 1 := by
  have hplen : (process_color_stops (|w * dx| + |h * dy|) stops).length
      = colors0.length := by
    rw [process_color_stops_length, hlen]
  by_cases hl1 : colors0.length = 1
  · exact absurd (by simp only [linear_layout, if_pos hl1]; rfl) hns
  · have h2 : 2 ≤ colors0.length := by
      have := List.length_pos.2 hc0
      omega
    cases repeating with
    | false =>
        have hpadf := @pad_front_lengths _ colors0 (by rw [hplen])
        have hpadb := pad_back_lengths hpadf.1
        simp only [linear_layout, if_neg hl1, Bool.false_eq_true, and_false, if_false]
        refine ⟨?_, ?_, trivial⟩
        · rw [normalize_length]
          exact hpadb.1
        · rw [normalize_length]
          omega
    | true =>
        simp only [linear_layout, if_neg hl1, and_true, eq_self_iff_true, if_true] at hns ⊢
        split at hns
        · exact absurd rfl hns
        · next hcol =>
            rw [if_neg hcol]
            refine ⟨?_, ?_, rfl⟩
            · rw [normalize_length, hplen]
            · rw [normalize_length]
              omega

theorem linear_layout_span {repeating : Bool} {colors0 : List RGBA}
    {stops : List (Option Dimension)} {w h dx dy : ℚ}
    (hc0 : colors0 ≠ []) (hlen : colors0.length = stops.length)
    (hchain : List.Chain' (· ≤ ·) (process_color_stops (|w * dx| + |h * dy|) stops))
    (hns : (linear_layout repeating colors0 stops w h dx dy).type_ ≠ .solid) :
    (linear_layout repeating colors0 stops w h dx dy).positions.head? = some 0 ∧
    (linear_layout repeating colors0 stops w h dx dy).positions.getLast? = some 1 ∧
    List.Chain' (· ≤ ·) (linear_layout repeating colors0 stops w h dx dy).positions ∧
    ∀ p ∈ (linear_layout repeating colors0 stops w h dx dy).positions,
      0 ≤ p ∧ p ≤ 1 := by
  have hplen : (process_color_stops (|w * dx| + |h * dy|) stops).length
      = colors0.length := by
    rw [process_color_stops_length, hlen]
  by_cases hl1 : colors0.length = 1
  · exact absurd (by simp only [linear_layout, if_pos hl1]; rfl) hns
  · have h2 : 2 ≤ colors0.length := by
      have := List.length_pos.2 hc0
      omega
    have hp2 : 2 ≤ (process_color_stops (|w * dx| + |h * dy|) stops).length := by
      omega
    cases repeating with
    | false =>
        obtain ⟨hchF, hlastF, hheadF, hlenF⟩ := pad_front_span colors0 hchain hp2
        have hFne : (pad_front (process_color_stops (|w * dx| + |h * dy|) stops)
            colors0).1 ≠ [] := by
          intro hc
          rw [hc] at hlenF
          simp at hlenF
        obtain ⟨hchQ, hheadQ, hlastQ, hlenQ, hQne⟩ :=
          pad_back_facts (pad_front (process_color_stops (|w * dx| + |h * dy|) stops)
            colors0).2 hchF hFne
        have hstrict : (pad_back (pad_front (process_color_stops (|w * dx| + |h * dy|)
            stops) colors0).1 (pad_front (process_color_stops (|w * dx| + |h * dy|)
            stops) colors0).2).1.headD 0
            < (pad_back (pad_front (process_color_stops (|w * dx| + |h * dy|) stops)
              colors0).1 (pad_front (process_color_stops (|w * dx| + |h * dy|) stops)
              colors0).2).1.getLastD 0 := by
          rw [hheadQ]
          calc _ < (process_color_stops (|w * dx| + |h * dy|) stops).getLastD 0 := hheadF
            _ = _ := hlastF.symm
            _ ≤ _ := hlastQ
        have hhl := normalize_head_last hQne (ne_of_lt hstrict)
        have hcb := normalize_chain_bounds hchQ hstrict
        simp only [linear_layout, if_neg hl1, Bool.false_eq_true, and_false, if_false]
        exact ⟨hhl.1, hhl.2, hcb.1, hcb.2⟩
    | true =>
        simp only [linear_layout, if_neg hl1, and_true, eq_self_iff_true, if_true] at hns ⊢
        split at hns
        · exact absurd rfl hns
        · next hcol =>
            rw [if_neg hcol]
            have hPne : process_color_stops (|w * dx| + |h * dy|) stops ≠ [] := by
              intro hc
              rw [hc] at hplen
              simp only [List.length_nil] at hplen
              omega
            have hfl : (process_color_stops (|w * dx| + |h * dy|) stops).headD 0
                ≠ (process_color_stops (|w * dx| + |h * dy|) stops).getLastD 0 := by
              intro hc
              exact hcol (by rw [(normalize_parts _).1, (normalize_parts _).2, hc])
            have hle := chain'_le_getLast hchain _ (headD_mem hPne)
            have hstrict := lt_of_le_of_ne hle hfl
            have hhl := normalize_head_last hPne hfl
            have hcb := normalize_chain_bounds hchain hstrict
            exact ⟨hhl.1, hhl.2, hcb.1, hcb.2⟩

end Weasy
namespace Weasy

theorem radial_layout_span {colors0 : List RGBA} {stops : List (Option Dimension)}
    {w h : ℚ} {oxr oyb : Bool} {cx cy : Dimension} {sx sy maxd : ℚ} {plan : Plan}
    (hc0 : colors0 ≠ []) (hlen : colors0.length = stops.length)
    (hchain : List.Chain' (· ≤ ·)
      (process_color_stops (handle_degenerate sx sy).1 stops))
    (hp : radial_layout false colors0 stops w h oxr cx oyb cy sx sy maxd = some plan)
    (hns : plan.type_ ≠ .solid) :
    plan.positions.head? = some 0 ∧ plan.positions.getLast? = some 1 ∧
    List.Chain' (· ≤ ·) plan.positions ∧
    ∀ p ∈ plan.positions, 0 ≤ p ∧ p ≤ 1 := by
  have hplen : (process_color_stops (handle_degenerate sx sy).1 stops).length
      = colors0.length := by
    rw [process_color_stops_length, hlen]
  simp only [radial_layout, Bool.false_eq_true, and_false, if_false] at hp
  split at hp
  · obtain rfl := Option.some.inj hp
    exact absurd rfl hns
  · next hl1 =>
      have h2 : 2 ≤ colors0.length := by
        have := List.length_pos.2 hc0
        omega
      have hp2 : 2 ≤ (process_color_stops (handle_degenerate sx sy).1 stops).length := by
        omega
      split at hp
      · exact absurd hp (by simp)
      · obtain rfl := Option.some.inj hp
        exact absurd rfl hns
      · next ps cs hcont =>
          obtain ⟨hchF, hlastF, hlenF, hdisj⟩ := radial_pad_front_span colors0 hchain hp2
          have hFne : (radial_pad_front (process_color_stops
              (handle_degenerate sx sy).1 stops) colors0).1 ≠ [] := by
            intro hc
            rw [hc] at hlenF
            simp at hlenF
          obtain ⟨hchQ, hheadQ, hlastQ, hlenQ, hQne⟩ :=
            pad_back_facts (radial_pad_front (process_color_stops
              (handle_degenerate sx sy).1 stops) colors0).2 hchF hFne
          have hstrict : (pad_back (radial_pad_front (process_color_stops
              (handle_degenerate sx sy).1 stops) colors0).1
              (radial_pad_front (process_color_stops (handle_degenerate sx sy).1 stops)
                colors0).2).1.headD 0
              < (pad_back (radial_pad_front (process_color_stops
                (handle_degenerate sx sy).1 stops) colors0).1
                (radial_pad_front (process_color_stops (handle_degenerate sx sy).1 stops)
                  colors0).2).1.getLastD 0 := by
            rcases hdisj with hlt | ⟨hfl, hFP⟩
            · rw [hheadQ]
              calc _ < (process_color_stops (handle_degenerate sx sy).1
                  stops).getLastD 0 := hlt
                _ = _ := hlastF.symm
                _ ≤ _ := hlastQ
            · have hdrop := all_equal_dropLast_last hchain hp2 hfl
              have hfire := @pad_back_fire ((radial_pad_front (process_color_stops
                  (handle_degenerate sx sy).1 stops) colors0).1)
                ((radial_pad_front (process_color_stops
                  (handle_degenerate sx sy).1 stops) colors0).2)
                (by rw [hFP]; exact hp2) (by rw [hFP]; exact hdrop)
              rw [hheadQ, hfire, hFP, hfl]
              linarith
          -- lengths of the padded colors, to rule out the junk branch
          have hpadf := @radial_pad_front_lengths _ colors0 (by rw [hplen])
          have hpadb := pad_back_lengths hpadf.1
          have hQcne : (pad_back (radial_pad_front (process_color_stops
              (handle_degenerate sx sy).1 stops) colors0).1
              (radial_pad_front (process_color_stops (handle_degenerate sx sy).1 stops)
                colors0).2).2 ≠ [] := by
            intro hc
            have h0 := hpadb.1
            rw [hc] at h0
            simp only [List.length_nil] at h0
            have := hpadf.2
            have := hpadb.2
            omega
          rcases radial_negative_cont_inv hQcne hcont with
            ⟨hps, hcs, _⟩ | ⟨htrue, _⟩ | ⟨_, p₀, ps', c₀, cs', hps0, hcs0', hneg, hlast, hsc⟩
          · subst hps
            subst hcs
            have hhl := normalize_head_last hQne (ne_of_lt hstrict)
            have hcb := normalize_chain_bounds hchQ hstrict
            obtain rfl := Option.some.inj hp
            exact ⟨hhl.1, hhl.2, hcb.1, hcb.2⟩
          · exact absurd htrue (by simp)
          · have hlen' : ps'.length = cs'.length := by
              have := hpadb.1
              rw [hps0, hcs0'] at this
              simp only [List.length_cons] at this
              omega
            have hps'ne : ps' ≠ [] := by
              intro hc
              subst hc
              rw [hps0] at hlast
              simp only [List.getLastD_cons, List.getLastD_nil] at hlast
              linarith
            have hlast' : 0 < ps'.getLastD 0 := by
              rw [hps0, List.getLastD_cons, getLastD_of_ne_nil hps'ne p₀ 0] at hlast
              exact hlast
            have hhead := neg_scan_head c₀ p₀ hlast' hlen'
            have hglast := neg_scan_getLast c₀ p₀ cs' hlast'
            have hchain' : List.Chain' (· ≤ ·) ps' := by
              have := hchQ
              rw [hps0] at this
              exact this.tail
            have hchR := neg_scan_chain c₀ p₀ cs' hchain'
            obtain ⟨hpse, hcse⟩ : ps = (neg_scan c₀ p₀ ps' cs').1
                ∧ cs = (neg_scan c₀ p₀ ps' cs').2 := by
              rw [Prod.ext_iff] at hsc
              exact hsc
            subst hpse
            subst hcse
            have hRne : (neg_scan c₀ p₀ ps' cs').1 ≠ [] := by
              intro hc
              rw [hc] at hhead
              simp at hhead
            have hRhead : (neg_scan c₀ p₀ ps' cs').1.headD 0 = 0 := by
              rw [List.headD_eq_head?, hhead]
              rfl
            have hRlast : (neg_scan c₀ p₀ ps' cs').1.getLastD 0 = ps'.getLastD 0 := by
              rw [List.getLastD_eq_getLast?, hglast, getLast?_eq_getLastD hps'ne]
              rfl
            have hstrictR : (neg_scan c₀ p₀ ps' cs').1.headD 0
                < (neg_scan c₀ p₀ ps' cs').1.getLastD 0 := by
              rw [hRhead, hRlast]
              exact hlast'
            have hhl := normalize_head_last hRne (ne_of_lt hstrictR)
            have hcb := normalize_chain_bounds hchR hstrictR
            obtain rfl := Option.some.inj hp
            exact ⟨hhl.1, hhl.2, hcb.1, hcb.2⟩

end Weasy
namespace Weasy

theorem radial_negative_all_neg {ps : List ℚ} {cs g : List RGBA} {p₀ : ℚ}
    (h0 : ps.head? = some p₀) (hneg : p₀ < 0) (hlast : ps.getLastD 0 ≤ 0) :
    radial_negative false ps cs g = some (.solidC (g.getLastD dRGBA)) := by
  unfold radial_negative
  rw [h0]
  dsimp only
  rw [if_pos hneg, if_neg Bool.false_ne_true, if_pos hlast]

end Weasy

namespace Weasy

theorem radial_layout_all_neg {colors0 : List RGBA} {stops : List (Option Dimension)}
    {w h : ℚ} {oxr oyb : Bool} {cx cy : Dimension} {sx sy maxd : ℚ} {p₀ : ℚ}
    (hl1 : ¬ colors0.length = 1)
    (h0 : (pad_back (radial_pad_front (process_color_stops (handle_degenerate sx sy).1
        stops) colors0).1
      (radial_pad_front (process_color_stops (handle_degenerate sx sy).1 stops)
        colors0).2).1.head? = some p₀)
    (hneg : p₀ < 0)
    (hlast : (pad_back (radial_pad_front (process_color_stops (handle_degenerate sx sy).1
        stops) colors0).1
      (radial_pad_front (process_color_stops (handle_degenerate sx sy).1 stops)
        colors0).2).1.getLastD 0 ≤ 0) :
    radial_layout false colors0 stops w h oxr cx oyb cy sx sy maxd
      = some (solidPlan (colors0.getLastD dRGBA)) := by
  simp only [radial_layout, Bool.false_eq_true, and_false, if_false]
  rw [if_neg hl1, radial_negative_all_neg h0 hneg hlast]

theorem linear_collapse {colors0 : List RGBA} {stops : List (Option Dimension)}
    {w h dx dy : ℚ} (hl1 : ¬ colors0.length = 1)
    (hfl : (process_color_stops (|w * dx| + |h * dy|) stops).headD 0
      = (process_color_stops (|w * dx| + |h * dy|) stops).getLastD 0) :
    linear_layout true colors0 stops w h dx dy
      = solidPlan (gradient_average_color colors0
        (normalize_stop_positions
          (process_color_stops (|w * dx| + |h * dy|) stops)).2.2) := by
  simp only [linear_layout, if_neg hl1, and_true, eq_self_iff_true, if_true]
  rw [if_pos (by rw [(normalize_parts _).1, (normalize_parts _).2, hfl])]

theorem radial_collapse {colors0 : List RGBA} {stops : List (Option Dimension)}
    {w h : ℚ} {oxr oyb : Bool} {cx cy : Dimension} {sx sy maxd : ℚ}
    (hl1 : ¬ colors0.length = 1) (hne : stops ≠ [])
    (hhead : 0 ≤ (process_color_stops (handle_degenerate sx sy).1 stops).headD 0)
    (hfl : (process_color_stops (handle_degenerate sx sy).1 stops).headD 0
      = (process_color_stops (handle_degenerate sx sy).1 stops).getLastD 0) :
    radial_layout true colors0 stops w h oxr cx oyb cy sx sy maxd
      = some (solidPlan (gradient_average_color colors0
        (normalize_stop_positions
          (process_color_stops (handle_degenerate sx sy).1 stops)).2.2)) := by
  simp only [radial_layout, and_true, eq_self_iff_true, if_true]
  rw [if_neg hl1,
    radial_negative_nonneg true colors0 colors0
      (head?_eq_headD (process_ne_nil hne)) hhead]
  dsimp only
  rw [if_pos (by rw [(normalize_parts _).1, (normalize_parts _).2, hfl])]

theorem repeat_invocation_sound {sx sy : ℚ} {stops : List (Option Dimension)}
    {colors0 : List RGBA} {ps : List ℚ} {cs : List RGBA} (cx cy maxd : ℚ)
    (hc0 : colors0 ≠ []) (hlen : colors0.length = stops.length)
    (hcont : radial_negative true (process_color_stops (handle_degenerate sx sy).1 stops)
      colors0 colors0 = some (.cont ps cs))
    (hfl : (normalize_stop_positions ps).1 ≠ (normalize_stop_positions ps).2.1) :
    (normalize_stop_positions ps).2.2.head? = some 0 ∧
    (normalize_stop_positions ps).2.2.getLast? = some 1 ∧
    0 < (normalize_stop_positions ps).2.1 - (normalize_stop_positions ps).1 ∧
    radial_repeat maxd
      ⟨cx, cy, (normalize_stop_positions ps).1, cx, cy, (normalize_stop_positions ps).2.1⟩
      (normalize_stop_positions ps).2.2 cs ≠ none := by
  have hrc := repeating_cont_facts hc0 hcont
  have hpsne : ps ≠ [] := by
    intro hc
    subst hc
    exact hfl (by rw [(normalize_parts _).1, (normalize_parts _).2]; rfl)
  have hbounds : 0 ≤ ps.headD 0 ∧ ps.headD 0 ≤ ps.getLastD 0 := by
    rcases hrc.2.2 with hnil | hb
    · exact absurd hnil hpsne
    · exact hb
  have hfl' : ps.headD 0 ≠ ps.getLastD 0 := by
    intro hc
    exact hfl (by rw [(normalize_parts _).1, (normalize_parts _).2, hc])
  have hstrict := lt_of_le_of_ne hbounds.2 hfl'
  have hhl := normalize_head_last hpsne hfl'
  refine ⟨hhl.1, hhl.2, ?_, ?_⟩
  · rw [(normalize_parts _).1, (normalize_parts _).2]
    linarith
  · obtain ⟨pts2, ps2, cs2, hspec, _⟩ :=
      @radial_repeat_spec maxd
        (⟨cx, cy, (normalize_stop_positions ps).1, cx, cy,
          (normalize_stop_positions ps).2.1⟩ : RadialPoints) _ cs
        hhl.1 hhl.2
        (by show (0:ℚ) ≤ (normalize_stop_positions ps).1
            rw [(normalize_parts _).1]
            exact hbounds.1)
        (by show (normalize_stop_positions ps).1 < (normalize_stop_positions ps).2.1
            rw [(normalize_parts _).1, (normalize_parts _).2]
            exact hstrict)
        (by rw [normalize_length, hrc.1, hrc.2.1, hlen])
    rw [hspec]
    simp

end Weasy
namespace Weasy

theorem handle_degenerate_pos {sx sy : ℚ} (hx : 0 ≤ sx) (hy : 0 ≤ sy) :
    0 < (handle_degenerate sx sy).1 ∧ 0 < (handle_degenerate sx sy).2 := by
  unfold handle_degenerate
  split_ifs with h1 h2 h3 <;> push_neg at * <;> norm_num
  · exact ⟨lt_of_le_of_ne hx (Ne.symm h2), lt_of_le_of_ne hy (Ne.symm h3)⟩

theorem radial_layout_scale_pos {sx sy : ℚ} (hx : 0 ≤ sx) (hy : 0 ≤ sy)
    (repeating : Bool) (colors0 : List RGBA) (stops : List (Option Dimension))
    (w h : ℚ) (oxr oyb : Bool) (cx cy : Dimension) (maxd : ℚ) (plan : Plan)
    (hp : radial_layout repeating colors0 stops w h oxr cx oyb cy sx sy maxd
      = some plan) :
    0 < plan.scale_y := by
  obtain ⟨h1, h2⟩ := handle_degenerate_pos hx hy
  have hs : 0 < (handle_degenerate sx sy).2 / (handle_degenerate sx sy).1 := div_pos h2 h1
  simp only [radial_layout] at hp
  split at hp
  · obtain rfl : solidPlan _ = plan := Option.some.inj hp
    norm_num [solidPlan]
  · split at hp
    · exact absurd hp (by simp)
    · obtain rfl : solidPlan _ = plan := Option.some.inj hp
      norm_num [solidPlan]
    · split at hp
      · obtain rfl : solidPlan _ = plan := Option.some.inj hp
        norm_num [solidPlan]
      · split at hp
        · split at hp
          · exact absurd hp (by simp)
          · obtain rfl := Option.some.inj hp
            exact hs
        · obtain rfl := Option.some.inj hp
          exact hs

end Weasy

namespace Weasy

/-- C9: a Linear or Radial gradient with exactly one color stop returns the
solid plan with the color of that stop, for every box size and every
direction / shape / size / center parameter. -/
theorem C9_single_stop_solid (repeating repeating' : Bool)
    (stop_positions stop_positions' : List (Option Dimension))
    (w h dx dy : ℚ) (w' h' : ℚ) (oxr oyb : Bool) (cx cy : Dimension)
    (sx sy maxd : ℚ) (c c' : RGBA) :
    linear_layout repeating [c] stop_positions w h dx dy = solidPlan c ∧
    radial_layout repeating' [c'] stop_positions' w' h' oxr cx oyb cy sx sy maxd
      = some (solidPlan c') :=
  ⟨rfl, rfl⟩

/-- C1 counterexample: a repeating radial gradient whose repeat tiler fires
returns a non-Solid plan whose positions extend beyond 1 (here up to 3), so
the claimed invariant that non-Solid positions lie in `[0, 1]` with last
element exactly 1 is false. -/
theorem C1_counterexample :
    radial_layout true [⟨1,0,0,1⟩, ⟨0,0,1,1⟩] [some (.px 0), some (.px 50)] 200 200
        false (.px 100) false (.px 100) 100 100 120 =
      some ⟨1, .radial, .radPts ⟨100, 100, 0, 100, 100, 150⟩, [0, 1, 1, 2, 2, 3],
        [⟨1,0,0,1⟩, ⟨0,0,1,1⟩, ⟨1,0,0,1⟩, ⟨0,0,1,1⟩, ⟨1,0,0,1⟩, ⟨0,0,1,1⟩]⟩ ∧
    PlanKind.radial ≠ PlanKind.solid ∧ ¬ ((3 : ℚ) ≤ 1) := by
  have h2 : (⌈(7 : ℚ) / 5⌉ : ℤ) = 2 := by norm_num [Int.ceil_eq_iff]
  norm_num [radial_layout, radial_negative, process_color_stops, set_first, set_last,
    clamp_pass, fill_aux, percentage, pad_back, radial_pad_front, normalize_stop_positions,
    radial_repeat, radial_repeat_inward, iterCat, handle_degenerate, solidPlan, h2,
    List.range']
  decide

/-- C2 counterexample: with resolved positions `[-7, -2]` (span 5) the code
shifts by `5 * (1 + floor(7/5)) = 10`, giving `[3, 8]`, not by the claimed
`5 * ceil(1 - (-7)/5) = 15` which would give `[8, 13]`; and with positions
`[-5, -5]` the span is zero and the division raises `ZeroDivisionError`
(modelled as `none`) instead of shifting at all. -/
theorem C2_counterexample :
    radial_negative true [-7, -2] [⟨1,0,0,1⟩, ⟨0,0,1,1⟩] [⟨1,0,0,1⟩, ⟨0,0,1,1⟩] =
      some (.cont [3, 8] [⟨1,0,0,1⟩, ⟨0,0,1,1⟩]) ∧
    [(3 : ℚ), 8] ≠ ([-7, -2].map fun p => p + 5 * ((⌈(1 : ℚ) - -7 / 5⌉ : ℤ) : ℚ)) ∧
    radial_negative true [-5, -5] [⟨1,0,0,1⟩, ⟨0,0,1,1⟩] [⟨1,0,0,1⟩, ⟨0,0,1,1⟩] = none := by
  have h1 : (⌊(7 : ℚ) / 5⌋ : ℤ) = 1 := by norm_num [Int.floor_eq_iff]
  have h2 : (⌈(12 : ℚ) / 5⌉ : ℤ) = 3 := by norm_num [Int.ceil_eq_iff]
  norm_num [radial_negative, neg_scan, h1, h2]

/-- C2 amended: for a repeating radial gradient whose first resolved stop
position `p₀` is negative and whose span `positions[last] - positions[0]`
is strictly positive, every position is shifted by exactly
`span * (1 + floor(-p₀ / span))` (the formula of the code, which equals
`span * ceil(1 - p₀/span)` only when `span` divides `p₀`), and after the
shift the first position is ≥ 0 (in fact > 0).  When the span is zero the
code raises `ZeroDivisionError` instead. -/
theorem C2_shift_amended {ps : List ℚ} (cs g : List RGBA) {p₀ : ℚ}
    (h0 : ps.head? = some p₀) (hneg : p₀ < 0) (hspan : 0 < ps.getLastD 0 - p₀) :
    radial_negative true ps cs g =
      some (.cont (ps.map fun p =>
        p + (ps.getLastD 0 - p₀) * (1 + ((⌊-p₀ / (ps.getLastD 0 - p₀)⌋ : ℤ) : ℚ))) cs) ∧
    (ps.map fun p =>
        p + (ps.getLastD 0 - p₀) * (1 + ((⌊-p₀ / (ps.getLastD 0 - p₀)⌋ : ℤ) : ℚ))).head?
      = some (p₀ + (ps.getLastD 0 - p₀) *
        (1 + ((⌊-p₀ / (ps.getLastD 0 - p₀)⌋ : ℤ) : ℚ))) ∧
    0 ≤ p₀ + (ps.getLastD 0 - p₀) *
        (1 + ((⌊-p₀ / (ps.getLastD 0 - p₀)⌋ : ℤ) : ℚ)) := by
  obtain ⟨ha, hb, hc⟩ := radial_negative_shift cs g h0 hneg hspan
  exact ⟨ha, hb, le_of_lt hc⟩

theorem C2_shift_amended_witness :
    radial_negative true [-7, -2] [⟨1,0,0,1⟩, ⟨0,0,1,1⟩] [⟨1,0,0,1⟩, ⟨0,0,1,1⟩] =
      some (.cont ([-7, -2].map fun p =>
        p + (([-7, -2] : List ℚ).getLastD 0 - (-7)) *
          (1 + ((⌊-(-7) / (([-7, -2] : List ℚ).getLastD 0 - (-7))⌋ : ℤ) : ℚ)))
        [⟨1,0,0,1⟩, ⟨0,0,1,1⟩]) ∧
    (([-7, -2] : List ℚ).map fun p =>
        p + (([-7, -2] : List ℚ).getLastD 0 - (-7)) *
          (1 + ((⌊-(-7) / (([-7, -2] : List ℚ).getLastD 0 - (-7))⌋ : ℤ) : ℚ))).head?
      = some ((-7) + (([-7, -2] : List ℚ).getLastD 0 - (-7)) *
        (1 + ((⌊-(-7) / (([-7, -2] : List ℚ).getLastD 0 - (-7))⌋ : ℤ) : ℚ))) ∧
    0 ≤ (-7) + (([-7, -2] : List ℚ).getLastD 0 - (-7)) *
        (1 + ((⌊-(-7) / (([-7, -2] : List ℚ).getLastD 0 - (-7))⌋ : ℤ) : ℚ)) :=
  C2_shift_amended [⟨1,0,0,1⟩, ⟨0,0,1,1⟩] [⟨1,0,0,1⟩, ⟨0,0,1,1⟩] rfl
    (by norm_num) (by norm_num)

end Weasy
namespace Weasy

/-- C3 counterexample: with `vectorLength = 10` and positions
`[50px, unset]`, the unset last position is first defaulted to 10 but the
monotonic clamp then raises it to 50 ≠ 10; and for the single-stop input
`[unset]` the first-position rule wins, yielding 0 rather than the vector
length 7. -/
theorem C3_counterexample :
    process_color_stops 10 [some (.px 50), none] = [50, 50] ∧ (50 : ℚ) ≠ 10 ∧
    process_color_stops 7 [none] = [0] ∧ (0 : ℚ) ≠ 7 := by
  norm_num [process_color_stops, set_first, set_last, clamp_pass, fill_aux, percentage,
    List.range']

/-- C3 amended: if the first input position is unset the first output is
exactly 0 (unconditionally); if the last input position is unset, the last
output equals the vector length exactly, provided the input has at least
two entries, the vector length is nonnegative, and no explicitly set
position resolves above the vector length (otherwise the monotonic clamp
raises the defaulted last position above it). -/
theorem C3_defaults_amended (vl : ℚ) (st st2 : List (Option Dimension))
    (h1 : st.head? = some none)
    (hlen2 : 2 ≤ st2.length) (h2 : st2.getLast? = some none) (hvl : 0 ≤ vl)
    (hb : ∀ d ∈ st2, ∀ x, d = some x → percentage x vl ≤ vl) :
    (process_color_stops vl st).head? = some 0 ∧
    (process_color_stops vl st2).getLast? = some vl :=
  ⟨process_head_first_unset h1, process_getLast_unset hlen2 h2 hvl hb⟩

theorem C3_defaults_amended_witness :
    (process_color_stops 100 [none, some (.px 50)]).head? = some 0 ∧
    (process_color_stops 100 [some (.px 20), none]).getLast? = some 100 :=
  C3_defaults_amended 100 [none, some (.px 50)] [some (.px 20), none] rfl
    (by norm_num) rfl (by norm_num)
    (by
      intro d hd x hx
      rcases (by simpa using hd : d = some (Dimension.px 20) ∨ d = none) with rfl | rfl
      · obtain rfl : Dimension.px 20 = x := by simpa using hx
        norm_num [percentage]
      · simp at hx)

/-- C4 counterexample: the interpolation fill uses the absolute index
(`base + j * increment`, line 236) instead of the offset from the left
anchor, so resolving `[0px, unset, 10px, unset, unset, 40px]` against
vector length 40 yields `[0, 5, 10, 40, 50, 40]`, which is not
non-decreasing and contains 50 > 40; moreover an explicitly set stop such
as 150px against vector length 100 is legitimately kept at 150 outside
`[0, vectorLength]`. -/
theorem C4_counterexample :
    process_color_stops 40 [some (.px 0), none, some (.px 10), none, none, some (.px 40)]
      = [0, 5, 10, 40, 50, 40] ∧
    ¬ List.Chain' (· ≤ ·) [0, 5, 10, 40, (50 : ℚ), 40] ∧
    process_color_stops 100 [some (.px 0), some (.px 150)] = [0, 150] ∧
    ¬ ((150 : ℚ) ≤ 100) := by
  norm_num [process_color_stops, set_first, set_last, clamp_pass, fill_aux, percentage,
    List.range', List.Chain']

/-- C4 amended: for every non-empty input whose positions are all
explicitly set (the interpolation-fill defect only affects unset
positions), the output of the stop resolver is non-decreasing — with no
bound on where the set positions lie; if moreover `vectorLength` is
nonnegative and every set position resolves into `[0, vectorLength]`,
every output value lies in `[0, vectorLength]`. -/
theorem C4_resolver_amended (vl : ℚ) (st : List (Option Dimension))
    (hset : ∀ d ∈ st, d ≠ none) :
    List.Chain' (· ≤ ·) (process_color_stops vl st) ∧
    (0 ≤ vl →
      (∀ d ∈ st, ∀ x, d = some x → 0 ≤ percentage x vl ∧ percentage x vl ≤ vl) →
      (process_color_stops vl st).Forall (fun p => 0 ≤ p ∧ p ≤ vl)) := by
  refine ⟨process_all_set_chain hset, fun _ hin => ?_⟩
  obtain ⟨_, hb⟩ := process_all_set hset hin
  exact List.forall_iff_forall_mem.2 hb

theorem C4_resolver_amended_witness :
    List.Chain' (· ≤ ·) (process_color_stops 100 [some (.px 0), some (.px 150)]) ∧
    List.Chain' (· ≤ ·) (process_color_stops 100 [some (.px 10), some (.px 40)]) ∧
    (process_color_stops 100 [some (.px 10), some (.px 40)]).Forall
      (fun p => 0 ≤ p ∧ p ≤ 100) := by
  have hoob := C4_resolver_amended 100 [some (.px 0), some (.px 150)]
    (by
      intro d hd
      rcases (by simpa using hd :
        d = some (Dimension.px 0) ∨ d = some (Dimension.px 150)) with rfl | rfl <;> simp)
  have hmain := C4_resolver_amended 100 [some (.px 10), some (.px 40)]
    (by
      intro d hd
      rcases (by simpa using hd :
        d = some (Dimension.px 10) ∨ d = some (Dimension.px 40)) with rfl | rfl <;> simp)
  refine ⟨hoob.1, hmain.1, hmain.2 (by norm_num) ?_⟩
  intro d hd x hx
  rcases (by simpa using hd :
      d = some (Dimension.px 10) ∨ d = some (Dimension.px 40)) with rfl | rfl
  · obtain rfl : Dimension.px 10 = x := by simpa using hx
    norm_num [percentage]
  · obtain rfl : Dimension.px 40 = x := by simpa using hx
    norm_num [percentage]

end Weasy
namespace Weasy

/-- C5: Scenario D — a non-repeating radial ellipse with explicit size
(50, 20) and stops at lengths −10, 50, 150 yields a plan whose first
normalized position is 0 and whose first color is the value the code
interpolates at position 0 via the average-color computation over the
bracketing pair (and, at concrete colors, that value differs from the
own color of the first stop); in general, when all padded resolved positions
are ≤ 0 with a negative first position, the non-repeating radial layout
collapses to a solid plan with the last stop color. -/
theorem C5_negative_truncation (c0 c1 c2 : RGBA) (w h cxv cyv maxd : ℚ)
    (colors0 : List RGBA) (stops : List (Option Dimension))
    (w2 h2 : ℚ) (oxr oyb : Bool) (cx cy : Dimension) (sx sy maxd2 p₀ : ℚ)
    (hl1 : ¬ colors0.length = 1)
    (h0 : (pad_back (radial_pad_front (process_color_stops (handle_degenerate sx sy).1
        stops) colors0).1
      (radial_pad_front (process_color_stops (handle_degenerate sx sy).1 stops)
        colors0).2).1.head? = some p₀)
    (hneg : p₀ < 0)
    (hlast : (pad_back (radial_pad_front (process_color_stops (handle_degenerate sx sy).1
        stops) colors0).1
      (radial_pad_front (process_color_stops (handle_degenerate sx sy).1 stops)
        colors0).2).1.getLastD 0 ≤ 0) :
    radial_layout false [c0, c1, c2]
        [some (.px (-10)), some (.px 50), some (.px 150)] w h
        false (.px cxv) false (.px cyv) 50 20 maxd =
      some ⟨2/5, .radial,
        .radPts ⟨cxv, cyv / (2/5), 0, cxv, cyv / (2/5), 150⟩,
        [0, 1/3, 1],
        [gradient_average_color [c0, c0, c1, c1] [-10, 0, 0, 50], c1, c2]⟩ ∧
    gradient_average_color [⟨1,0,0,1⟩, ⟨1,0,0,1⟩, ⟨0,1,0,1⟩, ⟨0,1,0,1⟩] [-10, 0, 0, 50]
      ≠ ⟨1,0,0,1⟩ ∧
    radial_layout false colors0 stops w2 h2 oxr cx oyb cy sx sy maxd2
      = some (solidPlan (colors0.getLastD dRGBA)) := by
  refine ⟨?_, ?_, radial_layout_all_neg hl1 h0 hneg hlast⟩
  · norm_num [radial_layout, radial_negative, neg_scan, process_color_stops, set_first,
      set_last, clamp_pass, fill_aux, percentage, pad_back, radial_pad_front,
      normalize_stop_positions, handle_degenerate, List.range']
  · norm_num [gradient_average_color, gac_sum, premultiply, addRGBA, smulRGBA]

theorem C5_negative_truncation_witness :
    radial_layout false [⟨1,0,0,1⟩, ⟨0,1,0,1⟩, ⟨0,0,1,1⟩]
        [some (.px (-10)), some (.px 50), some (.px 150)] 200 100
        false (.px 30) false (.px 40) 50 20 0 =
      some ⟨2/5, .radial,
        .radPts ⟨30, 40 / (2/5), 0, 30, 40 / (2/5), 150⟩,
        [0, 1/3, 1],
        [gradient_average_color [⟨1,0,0,1⟩, ⟨1,0,0,1⟩, ⟨0,1,0,1⟩, ⟨0,1,0,1⟩]
          [-10, 0, 0, 50], ⟨0,1,0,1⟩, ⟨0,0,1,1⟩]⟩ ∧
    gradient_average_color [⟨1,0,0,1⟩, ⟨1,0,0,1⟩, ⟨0,1,0,1⟩, ⟨0,1,0,1⟩] [-10, 0, 0, 50]
      ≠ ⟨1,0,0,1⟩ ∧
    radial_layout false [⟨1,0,0,1⟩, ⟨0,0,1,1⟩] [some (.px (-5)), some (.px (-1))]
        200 200 false (.px 100) false (.px 100) 100 100 0
      = some (solidPlan (([⟨1,0,0,1⟩, ⟨0,0,1,1⟩] : List RGBA).getLastD dRGBA)) :=
  C5_negative_truncation ⟨1,0,0,1⟩ ⟨0,1,0,1⟩ ⟨0,0,1,1⟩ 200 100 30 40 0
    [⟨1,0,0,1⟩, ⟨0,0,1,1⟩] [some (.px (-5)), some (.px (-1))] 200 200
    false false (.px 100) (.px 100) 100 100 0 (-5)
    (by norm_num)
    (by norm_num [pad_back, radial_pad_front, process_color_stops, set_first, set_last,
      clamp_pass, fill_aux, percentage, handle_degenerate, List.range'])
    (by norm_num)
    (by norm_num [pad_back, radial_pad_front, process_color_stops, set_first, set_last,
      clamp_pass, fill_aux, percentage, handle_degenerate, List.range'])

/-- C7 counterexample: a repeating radial gradient with both stops resolved
to −3 has equal first and last positions, but instead of collapsing to the
average solid color the code divides by the zero span and raises
`ZeroDivisionError` (modelled as `none`). -/
theorem C7_counterexample :
    process_color_stops 100 [some (.px (-3)), some (.px (-3))] = [-3, -3] ∧
    radial_layout true [⟨1,0,0,1⟩, ⟨0,0,1,1⟩] [some (.px (-3)), some (.px (-3))] 200 200
      false (.px 100) false (.px 100) 100 100 120 = none := by
  norm_num [radial_layout, radial_negative, process_color_stops, set_first, set_last,
    clamp_pass, fill_aux, percentage, handle_degenerate, List.range']

/-- C7 amended: a repeating linear gradient whose resolved first and last
stop positions coincide collapses to a solid plan colored by the average
color of the pre-collapse colors and normalized positions; the same holds
for a repeating radial gradient provided its first resolved position is
nonnegative (when it is negative with zero span, the code instead raises
`ZeroDivisionError`). -/
theorem C7_zero_period_collapse (lc : List RGBA) (lst : List (Option Dimension))
    (lw lh ldx ldy : ℚ) (rc : List RGBA) (rst : List (Option Dimension))
    (rw2 rh2 : ℚ) (roxr royb : Bool) (rcx rcy : Dimension) (rsx rsy rmaxd : ℚ)
    (hl1 : ¬ lc.length = 1)
    (hlf : (process_color_stops (|lw * ldx| + |lh * ldy|) lst).headD 0
      = (process_color_stops (|lw * ldx| + |lh * ldy|) lst).getLastD 0)
    (hr1 : ¬ rc.length = 1) (hrne : rst ≠ [])
    (hrhead : 0 ≤ (process_color_stops (handle_degenerate rsx rsy).1 rst).headD 0)
    (hrf : (process_color_stops (handle_degenerate rsx rsy).1 rst).headD 0
      = (process_color_stops (handle_degenerate rsx rsy).1 rst).getLastD 0) :
    linear_layout true lc lst lw lh ldx ldy
      = solidPlan (gradient_average_color lc
        (normalize_stop_positions
          (process_color_stops (|lw * ldx| + |lh * ldy|) lst)).2.2) ∧
    radial_layout true rc rst rw2 rh2 roxr rcx royb rcy rsx rsy rmaxd
      = some (solidPlan (gradient_average_color rc
        (normalize_stop_positions
          (process_color_stops (handle_degenerate rsx rsy).1 rst)).2.2)) :=
  ⟨linear_collapse hl1 hlf, radial_collapse hr1 hrne hrhead hrf⟩

theorem C7_zero_period_collapse_witness :
    linear_layout true [⟨1,0,0,1⟩, ⟨0,0,1,1⟩] [some (.px 5), some (.px 5)] 10 0 1 0
      = solidPlan (gradient_average_color [⟨1,0,0,1⟩, ⟨0,0,1,1⟩]
        (normalize_stop_positions
          (process_color_stops (|(10:ℚ) * 1| + |(0:ℚ) * 0|)
            [some (.px 5), some (.px 5)])).2.2) ∧
    radial_layout true [⟨1,0,0,1⟩, ⟨0,0,1,1⟩] [some (.px 5), some (.px 5)] 200 200
        false (.px 100) false (.px 100) 100 100 0
      = some (solidPlan (gradient_average_color [⟨1,0,0,1⟩, ⟨0,0,1,1⟩]
        (normalize_stop_positions
          (process_color_stops (handle_degenerate 100 100).1
            [some (.px 5), some (.px 5)])).2.2)) :=
  C7_zero_period_collapse [⟨1,0,0,1⟩, ⟨0,0,1,1⟩] [some (.px 5), some (.px 5)] 10 0 1 0
    [⟨1,0,0,1⟩, ⟨0,0,1,1⟩] [some (.px 5), some (.px 5)] 200 200 false false
    (.px 100) (.px 100) 100 100 0
    (by norm_num)
    (by norm_num [process_color_stops, set_first, set_last, clamp_pass, fill_aux,
      percentage, List.range'])
    (by norm_num) (by simp)
    (by norm_num [process_color_stops, set_first, set_last, clamp_pass, fill_aux,
      percentage, handle_degenerate, List.range'])
    (by norm_num [process_color_stops, set_first, set_last, clamp_pass, fill_aux,
      percentage, handle_degenerate, List.range'])

/-- C8: the degenerate ending-shape sizes (0,0), (0,·) and (·,0) are
replaced by (1e−7, 1e−7), (1e−7, 1e7) and (1e7, 1e−7) respectively, so the
division `verticalScale = sizeY / sizeX` never divides by zero, and for
nonnegative resolved sizes the scale — and the `scale_y` of every plan the
radial layout returns — is strictly positive. -/
theorem C8_degenerate_size (sx sy sz : ℚ) (hx : 0 ≤ sx) (hy : 0 ≤ sy) (hz : sz ≠ 0)
    (repeating : Bool) (colors0 : List RGBA) (stops : List (Option Dimension))
    (w h : ℚ) (oxr oyb : Bool) (cx cy : Dimension) (maxd : ℚ) (plan : Plan)
    (hp : radial_layout repeating colors0 stops w h oxr cx oyb cy sx sy maxd
      = some plan) :
    handle_degenerate 0 0 = (1 / 10 ^ 7, 1 / 10 ^ 7) ∧
    handle_degenerate 0 sz = (1 / 10 ^ 7, 10 ^ 7) ∧
    handle_degenerate sz 0 = (10 ^ 7, 1 / 10 ^ 7) ∧
    (handle_degenerate sx sy).1 ≠ 0 ∧
    0 < (handle_degenerate sx sy).2 / (handle_degenerate sx sy).1 ∧
    0 < plan.scale_y := by
  obtain ⟨h1, h2⟩ := handle_degenerate_pos hx hy
  refine ⟨by norm_num [handle_degenerate], by simp [handle_degenerate, hz],
    by simp [handle_degenerate, hz], ne_of_gt h1, div_pos h2 h1, ?_⟩
  exact radial_layout_scale_pos hx hy repeating colors0 stops w h oxr oyb cx cy maxd
    plan hp

theorem C8_degenerate_size_witness :
    handle_degenerate 0 0 = (1 / 10 ^ 7, 1 / 10 ^ 7) ∧
    handle_degenerate 0 5 = (1 / 10 ^ 7, 10 ^ 7) ∧
    handle_degenerate 5 0 = (10 ^ 7, 1 / 10 ^ 7) ∧
    (handle_degenerate 3 0).1 ≠ 0 ∧
    0 < (handle_degenerate 3 0).2 / (handle_degenerate 3 0).1 ∧
    0 < (solidPlan ⟨1,0,0,1⟩).scale_y :=
  C8_degenerate_size 3 0 5 (by norm_num) (by norm_num) (by norm_num)
    true [⟨1,0,0,1⟩] [] 10 10 false false (.px 0) (.px 0) 0 (solidPlan ⟨1,0,0,1⟩) rfl

end Weasy
namespace Weasy

/-- C6: whenever the repeat tiler runs on a state satisfying its invocation
invariants (normalized positions spanning exactly [0, 1], nonnegative
inner radius strictly below the outer radius, aligned color list), the
returned geometry has inner radius exactly 0 and outer radius at least the
maximal center-to-corner distance; and when
`ceil((maxDistance - outerRadius) / period)` is positive the outer radius
is extended by exactly that many whole periods. -/
theorem C6_repeat_tiler_geometry
    (maxd : ℚ) (pts : RadialPoints) (pos : List ℚ) (cols : List RGBA)
    (pts2 : RadialPoints) (ps2 : List ℚ) (cs2 : List RGBA)
    (h0 : pos.head? = some 0) (h1 : pos.getLast? = some 1)
    (hr : 0 ≤ pts.r0) (hlt : pts.r0 < pts.r1) (hlen : pos.length = cols.length)
    (hres : radial_repeat maxd pts pos cols = some (pts2, ps2, cs2))
    (maxd' : ℚ) (pts' : RadialPoints) (pos' : List ℚ) (cols' : List RGBA)
    (pts2' : RadialPoints) (ps2' : List ℚ) (cs2' : List RGBA)
    (h0' : pos'.head? = some 0) (h1' : pos'.getLast? = some 1)
    (hr' : 0 ≤ pts'.r0) (hlt' : pts'.r0 < pts'.r1) (hlen' : pos'.length = cols'.length)
    (hra' : 0 < ⌈(maxd' - pts'.r1) / (pts'.r1 - pts'.r0)⌉)
    (hres' : radial_repeat maxd' pts' pos' cols' = some (pts2', ps2', cs2')) :
    pts2.r0 = 0 ∧ maxd ≤ pts2.r1 ∧
    pts2'.r1 = pts'.r1 + (pts'.r1 - pts'.r0)
      * ((⌈(maxd' - pts'.r1) / (pts'.r1 - pts'.r0)⌉ : ℤ) : ℚ) := by
  obtain ⟨a, b, c, hspec, ha0, hamax, _⟩ := radial_repeat_spec h0 h1 hr hlt hlen
  obtain ⟨heq1, _⟩ := Prod.mk.injEq .. ▸ Option.some.inj (hres.symm.trans hspec)
  obtain ⟨a', b', c', hspec', _, _, hext', _⟩ :=
    radial_repeat_spec h0' h1' hr' hlt' hlen'
  obtain ⟨heq1', _⟩ := Prod.mk.injEq .. ▸ Option.some.inj (hres'.symm.trans hspec')
  refine ⟨?_, ?_, ?_⟩
  · rw [heq1]
    exact ha0
  · rw [heq1]
    exact hamax
  · rw [heq1']
    exact hext' hra'

end Weasy
namespace Weasy

theorem C6_repeat_tiler_geometry_witness :
    (⟨100, 100, 0, 100, 100, 150⟩ : RadialPoints).r0 = 0 ∧
    (120 : ℚ) ≤ (⟨100, 100, 0, 100, 100, 150⟩ : RadialPoints).r1 ∧
    (⟨100, 100, 0, 100, 100, 150⟩ : RadialPoints).r1
      = (⟨100, 100, 0, 100, 100, 50⟩ : RadialPoints).r1 +
        ((⟨100, 100, 0, 100, 100, 50⟩ : RadialPoints).r1
          - (⟨100, 100, 0, 100, 100, 50⟩ : RadialPoints).r0)
        * ((⌈((120 : ℚ) - (⟨100, 100, 0, 100, 100, 50⟩ : RadialPoints).r1)
            / ((⟨100, 100, 0, 100, 100, 50⟩ : RadialPoints).r1
              - (⟨100, 100, 0, 100, 100, 50⟩ : RadialPoints).r0)⌉ : ℤ) : ℚ) := by
  have h2 : (⌈(7 : ℚ) / 5⌉ : ℤ) = 2 := by norm_num [Int.ceil_eq_iff]
  have hres : radial_repeat 120 (⟨100, 100, 0, 100, 100, 50⟩ : RadialPoints) [0, 1]
      [⟨1,0,0,1⟩, ⟨0,0,1,1⟩] = some (⟨100, 100, 0, 100, 100, 150⟩,
        [0, 1, 1, 2, 2, 3],
        [⟨1,0,0,1⟩, ⟨0,0,1,1⟩, ⟨1,0,0,1⟩, ⟨0,0,1,1⟩, ⟨1,0,0,1⟩, ⟨0,0,1,1⟩]) := by
    norm_num [radial_repeat, radial_repeat_inward, iterCat, h2]
  exact C6_repeat_tiler_geometry 120 ⟨100, 100, 0, 100, 100, 50⟩ [0, 1]
    [⟨1,0,0,1⟩, ⟨0,0,1,1⟩] ⟨100, 100, 0, 100, 100, 150⟩ [0, 1, 1, 2, 2, 3]
    [⟨1,0,0,1⟩, ⟨0,0,1,1⟩, ⟨1,0,0,1⟩, ⟨0,0,1,1⟩, ⟨1,0,0,1⟩, ⟨0,0,1,1⟩]
    rfl rfl (by norm_num) (by norm_num) (by norm_num) hres
    120 ⟨100, 100, 0, 100, 100, 50⟩ [0, 1]
    [⟨1,0,0,1⟩, ⟨0,0,1,1⟩] ⟨100, 100, 0, 100, 100, 150⟩ [0, 1, 1, 2, 2, 3]
    [⟨1,0,0,1⟩, ⟨0,0,1,1⟩, ⟨1,0,0,1⟩, ⟨0,0,1,1⟩, ⟨1,0,0,1⟩, ⟨0,0,1,1⟩]
    rfl rfl (by norm_num) (by norm_num) (by norm_num)
    (by norm_num [h2]) hres

/-- C10: whenever `RadialGradient.layout` invokes the repeat tiler — that
is, for a repeating gradient whose negative-position handling returned
updated stop lists and whose normalized span guard found distinct first
and last positions — the normalized positions handed to the tiler start at
exactly 0 and end at exactly 1, the period length (outer radius minus
inner radius) is strictly positive, and the tiler succeeds: its two
internal assertions hold and every division by the period length is by a
nonzero number, so it never returns `None`. -/
theorem C10_repeat_preconditions {sx sy : ℚ} {stops : List (Option Dimension)}
    {colors0 : List RGBA} {ps : List ℚ} {cs : List RGBA} (cx cy maxd : ℚ)
    (hc0 : colors0 ≠ []) (hlen : colors0.length = stops.length)
    (hcont : radial_negative true (process_color_stops (handle_degenerate sx sy).1 stops)
      colors0 colors0 = some (.cont ps cs))
    (hfl : (normalize_stop_positions ps).1 ≠ (normalize_stop_positions ps).2.1) :
    (normalize_stop_positions ps).2.2.head? = some 0 ∧
    (normalize_stop_positions ps).2.2.getLast? = some 1 ∧
    0 < (normalize_stop_positions ps).2.1 - (normalize_stop_positions ps).1 ∧
    radial_repeat maxd
      ⟨cx, cy, (normalize_stop_positions ps).1, cx, cy, (normalize_stop_positions ps).2.1⟩
      (normalize_stop_positions ps).2.2 cs ≠ none :=
  repeat_invocation_sound cx cy maxd hc0 hlen hcont hfl

theorem C10_repeat_preconditions_witness :
    (normalize_stop_positions [10, 50]).2.2.head? = some 0 ∧
    (normalize_stop_positions [10, 50]).2.2.getLast? = some 1 ∧
    0 < (normalize_stop_positions [10, 50]).2.1 - (normalize_stop_positions [10, 50]).1 ∧
    radial_repeat 0
      ⟨0, 0, (normalize_stop_positions [10, 50]).1, 0, 0,
        (normalize_stop_positions [10, 50]).2.1⟩
      (normalize_stop_positions [10, 50]).2.2 [⟨1,0,0,1⟩, ⟨0,0,1,1⟩] ≠ none :=
  @C10_repeat_preconditions 100 100 [some (.px 10), some (.px 50)]
    [⟨1,0,0,1⟩, ⟨0,0,1,1⟩] [10, 50] [⟨1,0,0,1⟩, ⟨0,0,1,1⟩]
    0 0 0 (by simp) (by norm_num)
    (by norm_num [radial_negative, process_color_stops, set_first, set_last, clamp_pass,
      fill_aux, percentage, handle_degenerate, List.range'])
    (by norm_num [normalize_stop_positions])

end Weasy
namespace Weasy

/-- C1 amended: for every layout call that returns a non-Solid plan, the
positions and colors lists have equal length at least 2 and the vertical
scale is strictly positive (unconditionally for linear plans, including
plans built from non-monotone resolved positions; for radial plans, given
nonnegative resolved sizes).  The `[0, 1]` span property does not hold in
general — the repeat tiler extends the positions of a repeating radial
plan beyond 1 by design, and the interpolation-fill defect can break
monotonicity — but it does hold for linear plans and for non-repeating
radial plans whenever the resolved stop positions are non-decreasing: the
positions are then non-decreasing, lie in `[0, 1]`, and have first element
exactly 0 and last exactly 1. -/
theorem C1_invariants_amended
    (lr : Bool) (lc : List RGBA) (lst : List (Option Dimension)) (lw lh ldx ldy : ℚ)
    (hlc0 : lc ≠ []) (hllen : lc.length = lst.length)
    (hlns : (linear_layout lr lc lst lw lh ldx ldy).type_ ≠ .solid)
    (rr : Bool) (rc : List RGBA) (rst : List (Option Dimension)) (rw2 rh2 : ℚ)
    (roxr royb : Bool) (rcx rcy : Dimension) (rsx rsy rmaxd : ℚ) (rplan : Plan)
    (hrc0 : rc ≠ []) (hrlen : rc.length = rst.length) (hrsx : 0 ≤ rsx) (hrsy : 0 ≤ rsy)
    (hrp : radial_layout rr rc rst rw2 rh2 roxr rcx royb rcy rsx rsy rmaxd = some rplan)
    (hrns : rplan.type_ ≠ .solid)
    (nc : List RGBA) (nst : List (Option Dimension)) (nw nh : ℚ) (noxr noyb : Bool)
    (ncx ncy : Dimension) (nsx nsy nmaxd : ℚ) (nplan : Plan)
    (hnc0 : nc ≠ []) (hnlen : nc.length = nst.length)
    (hnchain : List.Chain' (· ≤ ·)
      (process_color_stops (handle_degenerate nsx nsy).1 nst))
    (hnp : radial_layout false nc nst nw nh noxr ncx noyb ncy nsx nsy nmaxd = some nplan)
    (hnns : nplan.type_ ≠ .solid) :
    (linear_layout lr lc lst lw lh ldx ldy).positions.length
      = (linear_layout lr lc lst lw lh ldx ldy).colors.length ∧
    2 ≤ (linear_layout lr lc lst lw lh ldx ldy).positions.length ∧
    0 < (linear_layout lr lc lst lw lh ldx ldy).scale_y ∧
    (List.Chain' (· ≤ ·) (process_color_stops (|lw * ldx| + |lh * ldy|) lst) →
      (linear_layout lr lc lst lw lh ldx ldy).positions.head? = some 0 ∧
      (linear_layout lr lc lst lw lh ldx ldy).positions.getLast? = some 1 ∧
      List.Chain' (· ≤ ·) (linear_layout lr lc lst lw lh ldx ldy).positions ∧
      (linear_layout lr lc lst lw lh ldx ldy).positions.Forall
        (fun p => 0 ≤ p ∧ p ≤ 1)) ∧
    rplan.positions.length = rplan.colors.length ∧
    2 ≤ rplan.positions.length ∧ 0 < rplan.scale_y ∧
    nplan.positions.head? = some 0 ∧ nplan.positions.getLast? = some 1 ∧
    List.Chain' (· ≤ ·) nplan.positions ∧
    nplan.positions.Forall (fun p => 0 ≤ p ∧ p ≤ 1) := by
  obtain ⟨hL1, hL2, hL3⟩ := linear_layout_lengths hlc0 hllen hlns
  obtain ⟨hR1, hR2⟩ := radial_layout_nonsolid_lengths hrc0 hrlen hrp hrns
  have hR3 := radial_layout_scale_pos hrsx hrsy rr rc rst rw2 rh2 roxr royb rcx rcy
    rmaxd rplan hrp
  obtain ⟨hN1, hN2, hN3, hN4⟩ := radial_layout_span hnc0 hnlen hnchain hnp hnns
  refine ⟨hL1, hL2, by rw [hL3]; norm_num, ?_, hR1, hR2, hR3, hN1, hN2, hN3,
    List.forall_iff_forall_mem.2 hN4⟩
  intro hlchain
  obtain ⟨hS1, hS2, hS3, hS4⟩ := linear_layout_span hlc0 hllen hlchain hlns
  exact ⟨hS1, hS2, hS3, List.forall_iff_forall_mem.2 hS4⟩

end Weasy
namespace Weasy

theorem C1_invariants_amended_witness :
    (linear_layout false [⟨1,0,0,1⟩, ⟨0,0,1,1⟩] [some (.px 0), some (.px 10)]
      10 0 1 0).positions.length
      = (linear_layout false [⟨1,0,0,1⟩, ⟨0,0,1,1⟩] [some (.px 0), some (.px 10)]
        10 0 1 0).colors.length ∧
    2 ≤ (linear_layout false [⟨1,0,0,1⟩, ⟨0,0,1,1⟩] [some (.px 0), some (.px 10)]
      10 0 1 0).positions.length ∧
    0 < (linear_layout false [⟨1,0,0,1⟩, ⟨0,0,1,1⟩] [some (.px 0), some (.px 10)]
      10 0 1 0).scale_y ∧
    (linear_layout false [⟨1,0,0,1⟩, ⟨0,0,1,1⟩] [some (.px 0), some (.px 10)]
      10 0 1 0).positions.head? = some 0 ∧
    (linear_layout false [⟨1,0,0,1⟩, ⟨0,0,1,1⟩] [some (.px 0), some (.px 10)]
      10 0 1 0).positions.getLast? = some 1 ∧
    List.Chain' (· ≤ ·) (linear_layout false [⟨1,0,0,1⟩, ⟨0,0,1,1⟩]
      [some (.px 0), some (.px 10)] 10 0 1 0).positions ∧
    (linear_layout false [⟨1,0,0,1⟩, ⟨0,0,1,1⟩] [some (.px 0), some (.px 10)]
      10 0 1 0).positions.Forall (fun p => 0 ≤ p ∧ p ≤ 1) ∧
    (⟨1, .radial, .radPts ⟨100, 100, 0, 100, 100, 50⟩, [0, 1],
      [⟨1,0,0,1⟩, ⟨0,0,1,1⟩]⟩ : Plan).positions.length
      = (⟨1, .radial, .radPts ⟨100, 100, 0, 100, 100, 50⟩, [0, 1],
        [⟨1,0,0,1⟩, ⟨0,0,1,1⟩]⟩ : Plan).colors.length ∧
    2 ≤ (⟨1, .radial, .radPts ⟨100, 100, 0, 100, 100, 50⟩, [0, 1],
      [⟨1,0,0,1⟩, ⟨0,0,1,1⟩]⟩ : Plan).positions.length ∧
    0 < (⟨1, .radial, .radPts ⟨100, 100, 0, 100, 100, 50⟩, [0, 1],
      [⟨1,0,0,1⟩, ⟨0,0,1,1⟩]⟩ : Plan).scale_y ∧
    (⟨1, .radial, .radPts ⟨100, 100, 0, 100, 100, 50⟩, [0, 1],
      [⟨1,0,0,1⟩, ⟨0,0,1,1⟩]⟩ : Plan).positions.head? = some 0 ∧
    (⟨1, .radial, .radPts ⟨100, 100, 0, 100, 100, 50⟩, [0, 1],
      [⟨1,0,0,1⟩, ⟨0,0,1,1⟩]⟩ : Plan).positions.getLast? = some 1 ∧
    List.Chain' (· ≤ ·) (⟨1, .radial, .radPts ⟨100, 100, 0, 100, 100, 50⟩, [0, 1],
      [⟨1,0,0,1⟩, ⟨0,0,1,1⟩]⟩ : Plan).positions ∧
    (⟨1, .radial, .radPts ⟨100, 100, 0, 100, 100, 50⟩, [0, 1],
      [⟨1,0,0,1⟩, ⟨0,0,1,1⟩]⟩ : Plan).positions.Forall (fun p => 0 ≤ p ∧ p ≤ 1) := by
  have hrp : radial_layout false [⟨1,0,0,1⟩, ⟨0,0,1,1⟩] [some (.px 0), some (.px 50)]
      200 200 false (.px 100) false (.px 100) 100 100 0
      = some ⟨1, .radial, .radPts ⟨100, 100, 0, 100, 100, 50⟩, [0, 1],
        [⟨1,0,0,1⟩, ⟨0,0,1,1⟩]⟩ := by
    norm_num [radial_layout, radial_negative, process_color_stops, set_first, set_last,
      clamp_pass, fill_aux, percentage, pad_back, radial_pad_front,
      normalize_stop_positions, handle_degenerate, List.range']
  have hlns : (linear_layout false [⟨1,0,0,1⟩, ⟨0,0,1,1⟩] [some (.px 0), some (.px 10)]
      10 0 1 0).type_ ≠ .solid := by
    norm_num [linear_layout, process_color_stops, set_first, set_last, clamp_pass,
      fill_aux, percentage, pad_back, pad_front, normalize_stop_positions, List.range']
    decide
  have hmain := C1_invariants_amended false [⟨1,0,0,1⟩, ⟨0,0,1,1⟩]
    [some (.px 0), some (.px 10)]
    10 0 1 0 (by simp) (by norm_num) hlns
    false [⟨1,0,0,1⟩, ⟨0,0,1,1⟩] [some (.px 0), some (.px 50)] 200 200 false false
    (.px 100) (.px 100) 100 100 0
    ⟨1, .radial, .radPts ⟨100, 100, 0, 100, 100, 50⟩, [0, 1], [⟨1,0,0,1⟩, ⟨0,0,1,1⟩]⟩
    (by simp) (by norm_num) (by norm_num) (by norm_num) hrp (by decide)
    [⟨1,0,0,1⟩, ⟨0,0,1,1⟩] [some (.px 0), some (.px 50)] 200 200 false false
    (.px 100) (.px 100) 100 100 0
    ⟨1, .radial, .radPts ⟨100, 100, 0, 100, 100, 50⟩, [0, 1], [⟨1,0,0,1⟩, ⟨0,0,1,1⟩]⟩
    (by simp) (by norm_num)
    (by norm_num [process_color_stops, set_first, set_last, clamp_pass, fill_aux,
      percentage, handle_degenerate, List.range', List.Chain'])
    hrp (by decide)
  obtain ⟨h1, h2, h3, himp, hrest⟩ := hmain
  obtain ⟨h4, h5, h6, h7⟩ := himp (by norm_num [process_color_stops, set_first,
    set_last, clamp_pass, fill_aux, percentage, List.range', List.Chain'])
  exact ⟨h1, h2, h3, h4, h5, h6, h7, hrest⟩

end Weasy
